import Mathlib

/-!
# Verification of the librarycat-rs ingestion-and-ranking pipeline

Shallow embedding of the two Rust sources `src/main.rs` (the older
variant, modelled as `ProcI`) and `src/main_ii.rs` (the newer variant
with per-file failure isolation, modelled as `ProcII`), together with
the shared text-processing stages (`exclude_tags`,
`capitalize_first_letter`, `post_proc_keywords`, `generate_meta`).

Rust strings are modelled as `List Char` (`RStr`).  Unicode-dependent
library behaviour (case mapping, whitespace, word characters, grapheme
segmentation) is modelled on the ASCII fragment plus combining marks,
which is the fragment every claim exercises; the modelled functions are
total on all of `Char`, they merely act as the identity outside that
fragment.  External crates (`pdf_extract`, `epub`, `keyword_extraction`,
`stop_words`, `csv`, the filesystem) are modelled as explicit inputs:
extraction outcomes are `Except` values stored in the filesystem tree,
and the TF-IDF ranker is a function parameter whose spec-level contract
(at most top-K results) is taken as a hypothesis where needed.
-/

namespace LibraryCat


/-- A Rust `String`/`&str`, modelled as its sequence of Unicode scalar
values. -/
abbrev RStr := List Char

/-- Rust `char::is_whitespace`, restricted to the ASCII whitespace
characters (model of the Unicode `White_Space` property). -/
def isWs (c : Char) : Bool :=
  c == ' ' || c == '\t' || c == '\n' || c == '\r'

/-- Rust `str::trim`: drop whitespace from both ends. -/
def rustTrim (s : RStr) : RStr :=
  ((s.dropWhile isWs).reverse.dropWhile isWs).reverse

/-- Rust `char::to_lowercase`, modelled on ASCII (identity elsewhere). -/
def lowerChar (c : Char) : Char :=
  if 65 ≤ c.toNat ∧ c.toNat ≤ 90 then Char.ofNat (c.toNat + 32) else c

/-- Rust `char::to_uppercase`, modelled on ASCII (identity elsewhere). -/
def upperChar (c : Char) : Char :=
  if 97 ≤ c.toNat ∧ c.toNat ≤ 122 then Char.ofNat (c.toNat - 32) else c

/-- ASCII decimal digit (what Rust's float grammar accepts). -/
def isDigitChar (c : Char) : Bool := 48 ≤ c.toNat && c.toNat ≤ 57

/-- Rust `str::to_lowercase`. -/
def rustLower (s : RStr) : RStr := s.map lowerChar

/-- Rust `str::to_uppercase`. -/
def rustUpper (s : RStr) : RStr := s.map upperChar

/-- The UTF-8 byte size of one Unicode scalar value (Rust chars are
scalar values, so the 1/2/3/4-byte ranges are exactly these). -/
def charUtf8Size (c : Char) : Nat :=
  if c.toNat < 0x80 then 1
  else if c.toNat < 0x800 then 2
  else if c.toNat < 0x10000 then 3
  else 4

/-- Rust `str::len`: the UTF-8 byte length. -/
def rustLen (s : RStr) : Nat := (s.map charUtf8Size).sum

/-! ## The grammar accepted by Rust's `f64::from_str`

`post_proc_keywords` branches on `trimmed_string.parse::<f64>()`.  The
accepted strings are: an optional sign, followed by either one of the
special words `inf`/`infinity`/`nan` (ASCII-case-insensitive), or a
decimal mantissa (digits with at most one point, at least one digit)
with an optional exponent part `('e'|'E') sign? digit+`. -/

/-- Leading sign characters accepted by `f64::from_str`. -/
def isSign (c : Char) : Bool := c == '+' || c == '-'

/-- Drop one optional leading sign. -/
def dropSign (s : RStr) : RStr :=
  match s with
  | [] => []
  | c :: r => if isSign c then r else c :: r

/-- Mantissa: `digit* ('.' digit*)?` with at least one digit overall. -/
def mantOk (m : RStr) : Bool :=
  let ip := m.takeWhile isDigitChar
  match m.dropWhile isDigitChar with
  | [] => !ip.isEmpty
  | c :: frac =>
    c == '.' && frac.all isDigitChar && (!ip.isEmpty || !frac.isEmpty)

/-- Exponent body (after the `e`/`E`): `sign? digit+`. -/
def expOk (e : RStr) : Bool :=
  let e' := dropSign e
  !e'.isEmpty && e'.all isDigitChar

/-- Is this character the exponent marker? -/
def isExpChar (c : Char) : Bool := c == 'e' || c == 'E'

/-- The grammar after the optional leading sign. -/
def parsesBody (b : RStr) : Bool :=
  if rustLower b == ('i' :: 'n' :: 'f' :: []) ||
     rustLower b == ('i' :: 'n' :: 'f' :: 'i' :: 'n' :: 'i' :: 't' :: 'y' :: []) ||
     rustLower b == ('n' :: 'a' :: 'n' :: []) then
    true
  else
    let mant := b.takeWhile (fun c => !isExpChar c)
    match b.dropWhile (fun c => !isExpChar c) with
    | [] => mantOk mant
    | _ :: exp => mantOk mant && expOk exp

/-- Model of `s.parse::<f64>().is_ok()` for a Rust string `s`. -/
def parsesF64 (s : RStr) : Bool :=
  parsesBody (dropSign s)

/-! ## Grapheme segmentation (unicode-segmentation crate)

Modelled extended grapheme clustering: a cluster is one scalar value
followed by any run of combining marks (modelled as the
U+0300–U+036F combining diacritical block).  This is the fragment of
UAX #29 that the pipeline's claims exercise; on ASCII text it is
one-cluster-per-char, which is the crate's behaviour as well. -/

/-- Is this a combining mark (modelled block U+0300–U+036F)? -/
def isCombining (c : Char) : Bool :=
  0x300 ≤ c.toNat && c.toNat ≤ 0x36F

theorem length_dropWhile_le {α : Type} (p : α → Bool) (l : List α) :
    (l.dropWhile p).length ≤ l.length := by
  induction l with
  | nil => simp
  | cons a l ih =>
    rw [List.dropWhile_cons]
    split
    · exact Nat.le_succ_of_le ih
    · exact Nat.le_refl _

/-- `UnicodeSegmentation::graphemes`: split into grapheme clusters. -/
def graphemes (s : RStr) : List RStr :=
  match s with
  | [] => []
  | c :: rest =>
    (c :: rest.takeWhile isCombining) :: graphemes (rest.dropWhile isCombining)
termination_by s.length
decreasing_by
  simp only [List.length_cons]
  exact Nat.lt_succ_of_le (length_dropWhile_le _ _)

/-- `capitalize_first_letter` from the source: uppercase the first
grapheme cluster, keep the rest of the string unchanged. -/
def capitalize_first_letter (input : RStr) : RStr :=
  match graphemes input with
  | [] => input
  | first :: rest => rustUpper first ++ rest.flatten

/-- The per-term decision of the post-processing loop (specification
side: `post_proc_keywords` is proved to be its `filterMap`). -/
def post_proc_term (s : RStr) : Option RStr :=
  let t := rustTrim s
  if parsesF64 t then
    if rustLen t == 4 then some t else none
  else if decide (3 ≤ (graphemes t).length) && !t.isEmpty then
    some (capitalize_first_letter t)
  else
    none

/-- `post_proc_keywords` from the source: the loop that trims each
ranked term, keeps 4-byte numeric terms verbatim, capitalizes
non-numeric terms of at least 3 grapheme clusters, and drops the
rest. -/
def post_proc_keywords (input : List RStr) : List RStr :=
  match input with
  | [] => []
  | s :: rest =>
    let t := rustTrim s
    if parsesF64 t then
      (if rustLen t == 4 then [t] else []) ++ post_proc_keywords rest
    else if decide (3 ≤ (graphemes t).length) && !t.isEmpty then
      capitalize_first_letter t :: post_proc_keywords rest
    else
      post_proc_keywords rest

/-! ## `exclude_tags` (regex crate, `\b(?:p1|p2|...)\b` + `replace_all`)

The source lowercases the content, builds one alternation of all
exclusion terms and their naive plurals (each trimmed and lowercased),
wraps it in word boundaries, and deletes every match.  We model the
regex engine's semantics directly: a *word boundary* sits between two
positions whose word-character status differs (out of range counts as
non-word, `\w` modelled as ASCII alphanumeric or underscore), and
`replace_all` scans left to right, at each position trying the
alternatives in order (leftmost-first), deleting the match and resuming
after it.  Patterns are matched literally; regex metacharacters inside
exclusion terms and empty alternatives are outside the model (the
theorems about `exclude_tags` restrict the terms to nonempty
word-character strings accordingly). -/

/-- Regex `\w`, modelled as ASCII alphanumeric or underscore. -/
def isWordChar (c : Char) : Bool := c.isAlphanum || c == '_'

/-- Word-character status of an optional character (out of range =
non-word). -/
def wordAt (c : Option Char) : Bool :=
  match c with
  | some c => isWordChar c
  | none => false

/-- Regex `\b`: the two sides differ in word-character status. -/
def boundary (prev next : Option Char) : Bool := wordAt prev != wordAt next

/-- Try one (nonempty) alternative at the current position: it must be a
literal prefix of the remaining text with a word boundary on each side.
On success, return the last matched character and the text after the
match. -/
def patMatch (prev : Option Char) (text : RStr) : RStr → Option (Char × RStr)
  | [] => none
  | a :: as =>
    if (a :: as).isPrefixOf text && boundary prev text.head? &&
        boundary (some ((a :: as).getLast (List.cons_ne_nil a as)))
          ((text.drop (as.length + 1)).head?) then
      some ((a :: as).getLast (List.cons_ne_nil a as), text.drop (as.length + 1))
    else
      none

/-- Try the alternatives in order (leftmost-first alternation). -/
def findMatch (pats : List RStr) (prev : Option Char) (text : RStr) :
    Option (Char × RStr) :=
  match pats with
  | [] => none
  | p :: ps =>
    match patMatch prev text p with
    | some r => some r
    | none => findMatch ps prev text

/-- The `replace_all` loop, with explicit fuel so that the kernel can
evaluate it (the fuel is only a recursion bound; `scrub` instantiates
it with the text length, which always suffices). -/
def scrubFuel (pats : List RStr) : Nat → Option Char → RStr → RStr
  | _, _, [] => []
  | 0, _, text => text
  | fuel + 1, prev, c :: rest =>
    match findMatch pats prev (c :: rest) with
    | some (lastc, remaining) => scrubFuel pats fuel (some lastc) remaining
    | none => c :: scrubFuel pats fuel (some c) rest

/-- The `replace_all` loop: scan the text, deleting every leftmost-first
whole-word match of one of the alternatives; `prev` is the character
just before the current position (for boundary decisions). -/
def scrub (pats : List RStr) (prev : Option Char) (text : RStr) : RStr :=
  scrubFuel pats text.length prev text

/-- The alternation built by `exclude_tags`: each term contributes
itself and itself + `"s"`, each then trimmed and lowercased. -/
def exclusion_patterns (exclusions : List RStr) : List RStr :=
  (exclusions.flatMap (fun e => [e, e ++ ['s']])).map (fun e => rustLower (rustTrim e))

/-- `exclude_tags` from the source: lowercase the content and delete all
whole-word matches of the alternation. -/
def exclude_tags (content : RStr) (exclusions : List RStr) : RStr :=
  scrub (exclusion_patterns exclusions) none (rustLower content)

/-- Every character is a word character (a text token). -/
abbrev AllWord (s : RStr) : Prop := ∀ c ∈ s, isWordChar c = true

/-- Every character is a separator (non-word). -/
abbrev AllNonWord (s : RStr) : Prop := ∀ c ∈ s, isWordChar c = false

/-- Well-formed literal alternation: nonempty word-character patterns
(the fragment of regex syntax the exclusion terms are expected to be —
metacharacters or embedded separators are outside this model). -/
abbrev PatsWF (pats : List RStr) : Prop := ∀ p ∈ pats, p ≠ [] ∧ AllWord p

/-- The character just before the position after emitting `s`. -/
def prevAfter (s : RStr) (prev : Option Char) : Option Char :=
  match s.getLast? with
  | some c => some c
  | none => prev

/-- A text presented as chunks of (separator, word) with a trailing
separator. -/
def renderChunks (cs : List (RStr × RStr)) (fin : RStr) : RStr :=
  cs.foldr (fun pr acc => pr.1 ++ (pr.2 ++ acc)) fin

/-- Chunks well-formed for the whole-word reading: separators hold no
word characters, words are nonempty runs of word characters. -/
abbrev ChunksWF (cs : List (RStr × RStr)) : Prop :=
  ∀ pr ∈ cs, AllNonWord pr.1 ∧ pr.2 ≠ [] ∧ AllWord pr.2

/-! ## `Document` and `generate_meta`

`generate_meta` loads the exclusion list (CSV, an external
collaborator: its outcome is the `loadRes` parameter, `unwrap_or_else`
degrading a load failure to the empty list), filters the content, and
ranks keywords with the external `keyword_extraction` TF-IDF ranker.
The ranker (together with the fixed stop-word and punctuation sets it
consumes) is the `ranker` function parameter; its spec-level contract —
`get_ranked_words 50` returns at most 50 terms — is assumed as a
hypothesis where a claim needs it. -/

structure Document where
  filename : RStr
  keywords : List RStr
deriving DecidableEq

/-- `Document::new`. -/
def Document.new (filename : RStr) (keywords : List RStr) : Document :=
  ⟨filename, keywords⟩

/-- `generate_meta` from the source: degrade a failed exclusion-list
load to the empty list, filter the content, rank, post-process. -/
def generate_meta (ranker : RStr → Nat → List RStr)
    (loadRes : Except RStr (List RStr)) (filename content : RStr) : Document :=
  let tag_exclusions :=
    match loadRes with
    | .ok l => l
    | .error _ => []
  let cleaned_content_filtered := exclude_tags content tag_exclusions
  Document.new filename (post_proc_keywords (ranker cleaned_content_filtered 50))

/-! ## The result map

`HashMap<String, Document>` keyed by `generate_id()` ids.  Ids combine
a microsecond timestamp with a random 64-bit value and are never reused
within a run (spec invariant); the model threads a counter through the
run and uses it as the key, which keeps exactly that property.  The map
is an association list with `HashMap::insert` semantics (overwrite an
existing key, otherwise add an entry). -/

abbrev RMap := List (Nat × Document)

/-- The keys of the map. -/
def keysOf (m : RMap) : List Nat := m.map Prod.fst

/-- `HashMap::insert`. -/
def mapInsert (k : Nat) (v : Document) (m : RMap) : RMap :=
  if k ∈ keysOf m then m.map (fun p => if p.1 = k then (k, v) else p)
  else (k, v) :: m

/-- `HashMap::extend`: insert every entry of `sub`. -/
def extendMap (m sub : RMap) : RMap :=
  sub.foldl (fun acc p => mapInsert p.1 p.2 acc) m

/-! ## The filesystem model and the `main_ii.rs` walker

A directory entry is a file (with the outcomes of the fallible external
steps recorded: `fs::read`, `pdf_extract::extract_text_from_mem`,
`collect_resources_into_string`), a subdirectory (with the outcome of
`fs::read_dir` on it), an entry whose read fails, or an entry without a
valid UTF-8 name.  Dispatch is by filename suffix, exactly as in the
source; a directory whose own name carries a `.pdf`/`.epub` suffix is
dispatched to the file handlers too, where the OS read fails (modelled
by `osIsDirErr`). -/

inductive FsEntry where
  | file (name : RStr) (readRes : Except RStr RStr) (extractRes : Except RStr RStr)
      (collectRes : Except RStr RStr)
  | dir (name : RStr) (contents : Except RStr (List FsEntry))
  | badEntry (err : RStr)
  | invalidName

/-- `file_name.ends_with(".pdf")`. -/
def endsWithPdf (n : RStr) : Bool := ".pdf".toList.isSuffixOf n

/-- `file_name.ends_with(".epub")`. -/
def endsWithEpub (n : RStr) : Bool := ".epub".toList.isSuffixOf n

/-- Modelled OS error text for reading a directory as a file. -/
def osIsDirErr : RStr := "Is a directory (os error 21)".toList

def pdfReadErrMsg (name err : RStr) : RStr :=
  "Error reading PDF file ".toList ++ name ++ ": ".toList ++ err

def pdfExtractErrMsg (name err : RStr) : RStr :=
  "Error extracting text from PDF ".toList ++ name ++ ": ".toList ++ err

def epubCollectErrMsg (name err : RStr) : RStr :=
  "Error collecting resources from EPUB ".toList ++ name ++ ": ".toList ++ err

def dirEntryErrMsg (err : RStr) : RStr :=
  "Error reading directory entry: ".toList ++ err

def invalidNameMsg : RStr := "Invalid file name".toList

/-- `handle_pdf_file` from `main_ii.rs`: read the bytes, extract the
text, and only then insert the generated document under a fresh id; on
a failed step, return the formatted message and leave the map
untouched. -/
def handle_pdf_file (ranker : RStr → Nat → List RStr)
    (loadRes : Except RStr (List RStr)) (docs : RMap) (ctr : Nat)
    (file_name : RStr) (readRes : Except RStr RStr)
    (extractRes : RStr → Except RStr RStr) :
    Except RStr Unit × RMap × Nat :=
  match readRes with
  | .error err => (.error (pdfReadErrMsg file_name err), docs, ctr)
  | .ok bytes =>
    match extractRes bytes with
    | .error err => (.error (pdfExtractErrMsg file_name err), docs, ctr)
    | .ok pdf_content =>
      (.ok (), mapInsert ctr (generate_meta ranker loadRes file_name pdf_content) docs,
        ctr + 1)

/-- `handle_epub_file` from `main_ii.rs`. -/
def handle_epub_file (ranker : RStr → Nat → List RStr)
    (loadRes : Except RStr (List RStr)) (docs : RMap) (ctr : Nat)
    (file_name : RStr) (collectRes : Except RStr RStr) :
    Except RStr Unit × RMap × Nat :=
  match collectRes with
  | .error err => (.error (epubCollectErrMsg file_name err), docs, ctr)
  | .ok epub_content =>
    (.ok (), mapInsert ctr (generate_meta ranker loadRes file_name epub_content) docs,
      ctr + 1)

mutual

/-- One iteration of the entry loop of `process_directory` in
`main_ii.rs`: the `.pdf` branch, the `.epub` branch, then the
recursive-subdirectory branch, each appending its failure to the error
list and continuing. -/
def procEntry (ranker : RStr → Nat → List RStr)
    (loadRes : Except RStr (List RStr)) (recursive : Bool) (e : FsEntry)
    (docs : RMap) (errs : List RStr) (ctr : Nat) : RMap × List RStr × Nat :=
  match e with
  | .badEntry err => (docs, errs ++ [dirEntryErrMsg err], ctr)
  | .invalidName => (docs, errs ++ [invalidNameMsg], ctr)
  | .file name readRes extractRes collectRes =>
    let s₁ :=
      if endsWithPdf name then
        match handle_pdf_file ranker loadRes docs ctr name readRes (fun _ => extractRes) with
        | (.error err, docs', ctr') => (docs', errs ++ [err], ctr')
        | (.ok _, docs', ctr') => (docs', errs, ctr')
      else (docs, errs, ctr)
    if endsWithEpub name then
      match handle_epub_file ranker loadRes s₁.1 s₁.2.2 name collectRes with
      | (.error err, docs', ctr') => (docs', s₁.2.1 ++ [err], ctr')
      | (.ok _, docs', ctr') => (docs', s₁.2.1, ctr')
    else s₁
  | .dir name contents =>
    let s₁ :=
      if endsWithPdf name then (docs, errs ++ [pdfReadErrMsg name osIsDirErr], ctr)
      else (docs, errs, ctr)
    let s₂ :=
      if endsWithEpub name then
        (s₁.1, s₁.2.1 ++ [epubCollectErrMsg name osIsDirErr], s₁.2.2)
      else s₁
    if recursive then
      match contents with
      | .error _ =>
        -- the recursive `process_directory` hits `fs::read_dir(..)?` inside
        -- its `catch_unwind` closure; the inner `Err` is dropped and the
        -- empty accumulators are returned, so nothing is merged or logged
        s₂
      | .ok sub =>
        match procList ranker loadRes recursive sub [] [] s₂.2.2 with
        | (sdocs, serrs, ctr') => (extendMap s₂.1 sdocs, s₂.2.1 ++ serrs, ctr')
    else s₂

/-- The entry loop of `process_directory` in `main_ii.rs` over a list
of directory entries, threading the shared result map, error list and
id state. -/
def procList (ranker : RStr → Nat → List RStr)
    (loadRes : Except RStr (List RStr)) (recursive : Bool)
    (entries : List FsEntry) (docs : RMap) (errs : List RStr) (ctr : Nat) :
    RMap × List RStr × Nat :=
  match entries with
  | [] => (docs, errs, ctr)
  | e :: rest =>
    match procEntry ranker loadRes recursive e docs errs ctr with
    | (docs', errs', ctr') => procList ranker loadRes recursive rest docs' errs' ctr'

end

/-- The entry loop of `main_ii.rs` with an injected traversal fault:
`fault = some k` makes the loop body panic just before its `k`-th
top-level iteration (a fault in the traversal logic itself).  Panics
inside a recursive `process_directory` call are caught by that call's
own `catch_unwind`, so injection at the top level is exhaustive.  The
returned flag records whether a panic was caught (and so logged to
stderr by the `if let Err(panic)` arm). -/
def procListF (ranker : RStr → Nat → List RStr)
    (loadRes : Except RStr (List RStr)) (recursive : Bool) :
    List FsEntry → Option Nat → RMap → List RStr → Nat →
    (RMap × List RStr × Nat) × Bool
  | _, some 0, docs, errs, ctr => ((docs, errs, ctr), true)
  | [], _, docs, errs, ctr => ((docs, errs, ctr), false)
  | e :: rest, fault, docs, errs, ctr =>
    match procEntry ranker loadRes recursive e docs errs ctr with
    | (docs', errs', ctr') =>
      procListF ranker loadRes recursive rest (fault.map Nat.pred) docs' errs' ctr'

/-- `process_directory` from `main_ii.rs`: fresh shared accumulators,
the entry loop inside `panic::catch_unwind` (with `fault` injecting an
optional traversal panic), then the accumulators are cloned and
returned — always `Ok`.  A failed `fs::read_dir` on the directory
itself makes the closure return early with an inner `Err` that the
caller drops, so the accumulators come back empty. -/
def process_directory_ii (ranker : RStr → Nat → List RStr)
    (loadRes : Except RStr (List RStr)) (recursive : Bool)
    (contents : Except RStr (List FsEntry)) (ctr : Nat) (fault : Option Nat) :
    (RMap × List RStr × Nat) × Bool :=
  match contents with
  | .error _ => (([], [], ctr), false)
  | .ok entries => procListF ranker loadRes recursive entries fault [] [] ctr

/-! ## The `main.rs` walker

The older `process_directory` has no error list and no per-file
recovery: every fallible step uses `?`, so the first failure aborts the
whole call (and, through the recursive `?`, the whole run) with `Err`.
`file_name().unwrap()` on a nameless entry panics; the panic is not
caught anywhere, modelled as an aborting error with a distinctive
message. -/

def unwrapPanicMsg : RStr :=
  "panicked: called Option::unwrap on a None value".toList

/-- The `.pdf` branch of the `main.rs` loop body: `fs::read(..)?` then
`extract_text_from_mem(..)?` then insert. -/
def pdfStageI (ranker : RStr → Nat → List RStr)
    (loadRes : Except RStr (List RStr)) (name : RStr)
    (readRes extractRes : Except RStr RStr) (docs : RMap) (ctr : Nat) :
    Except RStr (RMap × Nat) :=
  if endsWithPdf name then
    match readRes with
    | .error e => .error e
    | .ok _bytes =>
      match extractRes with
      | .error e => .error e
      | .ok pdf_content =>
        .ok (mapInsert ctr (generate_meta ranker loadRes name pdf_content) docs,
          ctr + 1)
  else .ok (docs, ctr)

/-- The `.epub` branch of the `main.rs` loop body. -/
def epubStageI (ranker : RStr → Nat → List RStr)
    (loadRes : Except RStr (List RStr)) (name : RStr)
    (collectRes : Except RStr RStr) (docs : RMap) (ctr : Nat) :
    Except RStr (RMap × Nat) :=
  if endsWithEpub name then
    match collectRes with
    | .error e => .error e
    | .ok epub_content =>
      .ok (mapInsert ctr (generate_meta ranker loadRes name epub_content) docs,
        ctr + 1)
  else .ok (docs, ctr)

/-- The file part of one `main.rs` loop iteration: the `.pdf` branch,
then (on success) the `.epub` branch. -/
def procFileI (ranker : RStr → Nat → List RStr)
    (loadRes : Except RStr (List RStr)) (name : RStr)
    (readRes extractRes collectRes : Except RStr RStr) (docs : RMap)
    (ctr : Nat) : Except RStr (RMap × Nat) :=
  match pdfStageI ranker loadRes name readRes extractRes docs ctr with
  | .error e => .error e
  | .ok s₁ => epubStageI ranker loadRes name collectRes s₁.1 s₁.2

mutual

/-- One iteration of the entry loop of `process_directory` in
`main.rs`; any failure propagates through `?` and aborts with `Err`. -/
def procEntryI (ranker : RStr → Nat → List RStr)
    (loadRes : Except RStr (List RStr)) (recursive : Bool) (e : FsEntry)
    (docs : RMap) (ctr : Nat) : Except RStr (RMap × Nat) :=
  match e with
  | .badEntry err => .error err
  | .invalidName => .error unwrapPanicMsg
  | .file name readRes extractRes collectRes =>
    procFileI ranker loadRes name readRes extractRes collectRes docs ctr
  | .dir name contents =>
    if endsWithPdf name then .error osIsDirErr
    else if endsWithEpub name then .error osIsDirErr
    else if recursive then
      match contents with
      | .error e => Except.error e
      | .ok sub =>
        match procListI ranker loadRes recursive sub [] ctr with
        | .error e => .error e
        | .ok (sdocs, ctr') => .ok (extendMap docs sdocs, ctr')
    else .ok (docs, ctr)

/-- The entry loop of `process_directory` in `main.rs`. -/
def procListI (ranker : RStr → Nat → List RStr)
    (loadRes : Except RStr (List RStr)) (recursive : Bool)
    (entries : List FsEntry) (docs : RMap) (ctr : Nat) :
    Except RStr (RMap × Nat)  :=
  match entries with
  | [] => .ok (docs, ctr)
  | e :: rest =>
    match procEntryI ranker loadRes recursive e docs ctr with
    | .error e => .error e
    | .ok (docs', ctr') => procListI ranker loadRes recursive rest docs' ctr'

end

/-- `process_directory` from `main.rs`. -/
def process_directory_i (ranker : RStr → Nat → List RStr)
    (loadRes : Except RStr (List RStr)) (recursive : Bool)
    (contents : Except RStr (List FsEntry)) (ctr : Nat) :
    Except RStr (RMap × Nat) :=
  match contents with
  | .error e => .error e
  | .ok entries => procListI ranker loadRes recursive entries [] ctr

/-! ## Counting eligible files, and the no-failure predicate -/

/-- Did this fallible external step succeed? -/
def isOkE {α β : Type} (r : Except α β) : Bool :=
  match r with
  | .ok _ => true
  | .error _ => false

mutual

/-- The number of files with a supported extension in the subtree (the
entries a fully recursive walk ingests). -/
def countEligibleE : FsEntry → Nat
  | .file name _ _ _ => if endsWithPdf name || endsWithEpub name then 1 else 0
  | .dir _ (.ok sub) => countEligibleL sub
  | .dir _ (.error _) => 0
  | .badEntry _ => 0
  | .invalidName => 0

def countEligibleL : List FsEntry → Nat
  | [] => 0
  | e :: rest => countEligibleE e + countEligibleL rest

end

mutual

/-- No extraction failure and no directory-read failure anywhere in the
subtree: every entry reads, every eligible file's external steps
succeed, no directory is itself named like an eligible file (reading it
as one would fail), and every subdirectory reads and is failure-free. -/
def noFailE : FsEntry → Bool
  | .file name rr er cr =>
    (!(endsWithPdf name && endsWithEpub name)) &&
      (!endsWithPdf name || (isOkE rr && isOkE er)) &&
      (!endsWithEpub name || isOkE cr)
  | .dir name contents =>
    !endsWithPdf name && !endsWithEpub name &&
      (match contents with
       | .ok sub => noFailL sub
       | .error _ => false)
  | .badEntry _ => false
  | .invalidName => false

def noFailL : List FsEntry → Bool
  | [] => true
  | e :: rest => noFailE e && noFailL rest

end

/-! ## The key/size invariant of the walk -/

/-- Invariant of one walk step starting from map `docs` and id state
`ctr`: the id state only grows, every key of the result is an old key
or a fresh one from this step's id range and, when the incoming keys
are fresh-bounded and distinct, so are the outgoing ones — with the
result gaining exactly `cnt` entries whenever `gate` holds. -/
def StepInv (docs : RMap) (ctr : Nat) (gate : Prop) (cnt : Nat)
    (p : RMap × List RStr × Nat) : Prop :=
  ctr ≤ p.2.2 ∧
  (∀ k ∈ keysOf p.1, k ∈ keysOf docs ∨ (ctr ≤ k ∧ k < p.2.2)) ∧
  ((∀ k ∈ keysOf docs, k < ctr) → (keysOf docs).Nodup →
    (keysOf p.1).Nodup ∧ (∀ k ∈ keysOf p.1, k < p.2.2) ∧
      (gate → p.1.length = docs.length + cnt))

/-! ## Concrete inputs used by the witnesses -/

/-- A trivial ranker (the external TF-IDF is a parameter; the constant
empty ranking satisfies the top-K contract). -/
def exRanker : RStr → Nat → List RStr := fun _ _ => []

def exLoad : Except RStr (List RStr) := Except.ok []

def exCorrupt : RStr := "corrupted".toList

def exIo : RStr := "io error".toList

/-- A `.pdf` file whose `fs::read` fails. -/
def exBadPdf : FsEntry :=
  .file "bad.pdf".toList (.error exCorrupt) (.ok []) (.ok [])

/-- A `.pdf` file whose read and extraction succeed. -/
def exGoodPdf : FsEntry :=
  .file "good.pdf".toList (.ok "b".toList) (.ok "text".toList) (.ok [])

/-- An `.epub` file whose resource collection succeeds. -/
def exGoodEpub : FsEntry :=
  .file "b.epub".toList (.ok []) (.ok []) (.ok "words".toList)

/-- A two-level tree with one eligible file per level. -/
def exTree : List FsEntry :=
  [exGoodPdf, .dir "sub".toList (.ok [exGoodEpub])]

/-! ### Anything the float grammar accepts is ASCII, so Rust's byte
length agrees with the character count on numeric terms. -/

theorem dropWhile_head_false {α : Type} (p : α → Bool) (l : List α) {c : α}
    {r : List α} (h : l.dropWhile p = c :: r) : p c = false := by
  induction l with
  | nil => simp at h
  | cons a l ih =>
    rw [List.dropWhile_cons] at h
    split at h
    · exact ih h
    · rename_i hp
      obtain ⟨rfl, -⟩ := List.cons.injEq .. ▸ h
      exact Bool.of_not_eq_true hp

theorem lowerChar_ascii {c : Char} (h : (lowerChar c).toNat < 128) :
    c.toNat < 128 := by
  unfold lowerChar at h
  split at h
  · rename_i hc
    omega
  · exact h

theorem ascii_of_mem_lower {b target : RStr} (hmap : rustLower b = target)
    (htarget : ∀ d ∈ target, d.toNat < 128) : ∀ c ∈ b, c.toNat < 128 := by
  intro c hc
  exact lowerChar_ascii (htarget _ (hmap ▸ List.mem_map_of_mem lowerChar hc))

theorem isDigitChar_ascii {c : Char} (h : isDigitChar c = true) :
    c.toNat < 128 := by
  unfold isDigitChar at h
  simp at h
  omega

theorem isSign_chars {c : Char} (h : isSign c = true) : c = '+' ∨ c = '-' := by
  unfold isSign at h
  rcases (Bool.or_eq_true _ _).mp h with h | h
  · exact Or.inl (beq_iff_eq.mp h)
  · exact Or.inr (beq_iff_eq.mp h)

theorem mantOk_ascii {m : RStr} (h : mantOk m = true) :
    ∀ c ∈ m, c.toNat < 128 := by
  unfold mantOk at h
  intro c hc
  rw [← List.takeWhile_append_dropWhile (p := isDigitChar) (l := m)] at hc
  rcases List.mem_append.mp hc with hc | hc
  · exact isDigitChar_ascii (List.mem_takeWhile_imp hc)
  · cases hd : m.dropWhile isDigitChar with
    | nil => rw [hd] at hc; simp at hc
    | cons d frac =>
      rw [hd] at h hc
      simp only [Bool.and_eq_true, beq_iff_eq] at h
      obtain ⟨⟨hdot, hfrac⟩, -⟩ := h
      rcases List.mem_cons.mp hc with rfl | hcf
      · rw [hdot]; decide
      · rw [List.all_eq_true] at hfrac
        exact isDigitChar_ascii (hfrac c hcf)

theorem expOk_ascii {e : RStr} (h : expOk e = true) : ∀ c ∈ e, c.toNat < 128 := by
  unfold expOk at h
  cases e with
  | nil => intro c hc; simp at hc
  | cons c0 erest =>
    intro c hc
    by_cases hs : isSign c0 = true
    · rw [show dropSign (c0 :: erest) = erest from by simp [dropSign, hs]] at h
      simp only [Bool.and_eq_true, List.all_eq_true] at h
      rcases List.mem_cons.mp hc with rfl | hce
      · rcases isSign_chars hs with rfl | rfl <;> decide
      · exact isDigitChar_ascii (h.2 c hce)
    · rw [show dropSign (c0 :: erest) = c0 :: erest from by simp [dropSign, hs]] at h
      simp only [Bool.and_eq_true, List.all_eq_true] at h
      exact isDigitChar_ascii (h.2 c hc)

theorem parsesBody_ascii {b : RStr} (h : parsesBody b = true) :
    ∀ c ∈ b, c.toNat < 128 := by
  unfold parsesBody at h
  split at h
  · rename_i hspec
    rcases (Bool.or_eq_true _ _).mp hspec with hsp | hsp
    · rcases (Bool.or_eq_true _ _).mp hsp with hsp | hsp
      · exact ascii_of_mem_lower (beq_iff_eq.mp hsp) (by decide)
      · exact ascii_of_mem_lower (beq_iff_eq.mp hsp) (by decide)
    · exact ascii_of_mem_lower (beq_iff_eq.mp hsp) (by decide)
  · intro c hc
    rw [← List.takeWhile_append_dropWhile (p := fun c => !isExpChar c) (l := b)] at hc
    rcases List.mem_append.mp hc with hc | hc
    · cases hd : b.dropWhile (fun c => !isExpChar c) with
      | nil => rw [hd] at h; exact mantOk_ascii h c hc
      | cons e0 exp =>
        rw [hd] at h
        rw [Bool.and_eq_true] at h
        exact mantOk_ascii h.1 c hc
    · cases hd : b.dropWhile (fun c => !isExpChar c) with
      | nil => rw [hd] at hc; simp at hc
      | cons e0 exp =>
        rw [hd] at h hc
        rw [Bool.and_eq_true] at h
        rcases List.mem_cons.mp hc with rfl | hce
        · have he0 := dropWhile_head_false _ _ hd
          rw [Bool.not_eq_false'] at he0
          unfold isExpChar at he0
          rcases (Bool.or_eq_true _ _).mp he0 with h' | h' <;>
            rw [beq_iff_eq.mp h'] <;> decide
        · exact expOk_ascii h.2 c hce

theorem parsesF64_ascii {s : RStr} (h : parsesF64 s = true) :
    ∀ c ∈ s, c.toNat < 128 := by
  unfold parsesF64 at h
  cases s with
  | nil => intro c hc; simp at hc
  | cons c0 srest =>
    intro c hc
    by_cases hs : isSign c0 = true
    · rw [show dropSign (c0 :: srest) = srest from by simp [dropSign, hs]] at h
      rcases List.mem_cons.mp hc with rfl | hcs
      · rcases isSign_chars hs with rfl | rfl <;> decide
      · exact parsesBody_ascii h c hcs
    · rw [show dropSign (c0 :: srest) = c0 :: srest from by simp [dropSign, hs]] at h
      exact parsesBody_ascii h c hc

theorem rustLen_eq_length {s : RStr} (h : ∀ c ∈ s, c.toNat < 128) :
    rustLen s = s.length := by
  induction s with
  | nil => rfl
  | cons c rest ih =>
    have hc := h c (List.mem_cons_self c rest)
    show (List.map charUtf8Size (c :: rest)).sum = _
    rw [List.map_cons, List.sum_cons,
      show charUtf8Size c = 1 from by unfold charUtf8Size; rw [if_pos hc],
      show (List.map charUtf8Size rest).sum = rest.length from
        ih (fun x hx => h x (List.mem_cons_of_mem _ hx))]
    simp [Nat.add_comm]

/-- Concatenating the grapheme clusters recovers the string. -/
theorem graphemes_flatten (s : RStr) : (graphemes s).flatten = s := by
  induction s using graphemes.induct with
  | case1 => simp [graphemes]
  | case2 c rest ih =>
    rw [graphemes, List.flatten_cons, ih, List.cons_append,
      List.takeWhile_append_dropWhile]

theorem post_proc_keywords_eq_filterMap (input : List RStr) :
    post_proc_keywords input = input.filterMap post_proc_term := by
  induction input with
  | nil => rfl
  | cons s rest ih =>
    rw [post_proc_keywords, List.filterMap_cons]
    by_cases h : parsesF64 (rustTrim s)
    · by_cases h4 : rustLen (rustTrim s) = 4
      · have ht : post_proc_term s = some (rustTrim s) := by
          simp [post_proc_term, h, h4]
        simp [h, h4, ht, ih]
      · have ht : post_proc_term s = none := by
          simp [post_proc_term, h, h4]
        simp [h, h4, ht, ih]
    · by_cases h3 :
        (decide (3 ≤ (graphemes (rustTrim s)).length) && !(rustTrim s).isEmpty) = true
      · have ht : post_proc_term s = some (capitalize_first_letter (rustTrim s)) := by
          simp only [post_proc_term, h, if_false, h3, if_true, Bool.false_eq_true]
        simp [h, h3, ht, ih]
      · have ht : post_proc_term s = none := by
          simp only [post_proc_term, h, if_false, h3, Bool.false_eq_true]
        simp [h, h3, ht, ih]

theorem post_proc_keywords_append (l₁ l₂ : List RStr) :
    post_proc_keywords (l₁ ++ l₂) = post_proc_keywords l₁ ++ post_proc_keywords l₂ := by
  simp [post_proc_keywords_eq_filterMap]

theorem post_proc_keywords_length_le (l : List RStr) :
    (post_proc_keywords l).length ≤ l.length := by
  rw [post_proc_keywords_eq_filterMap]
  exact List.length_filterMap_le post_proc_term l

theorem patMatch_some_length {prev : Option Char} {text p : RStr} {lc : Char}
    {rem : RStr} (h : patMatch prev text p = some (lc, rem)) :
    rem.length < text.length ∨ text = [] := by
  match p with
  | [] => simp [patMatch] at h
  | a :: as =>
    rw [patMatch] at h
    split at h
    · rename_i hcond
      simp only [Bool.and_eq_true] at hcond
      obtain ⟨⟨hpre, _⟩, _⟩ := hcond
      have hlen : as.length + 1 ≤ text.length := by
        have := (List.isPrefixOf_iff_prefix.mp hpre).length_le
        simpa using this
      simp only [Option.some.injEq, Prod.mk.injEq] at h
      obtain ⟨_, hrem⟩ := h
      cases text with
      | nil => exact Or.inr rfl
      | cons t ts =>
        left
        rw [← hrem]
        simp only [List.length_drop]
        omega
    · exact absurd h (by simp)

theorem findMatch_some_length {pats : List RStr} {prev : Option Char}
    {text : RStr} {lc : Char} {rem : RStr}
    (h : findMatch pats prev text = some (lc, rem)) :
    rem.length < text.length ∨ text = [] := by
  induction pats with
  | nil => simp [findMatch] at h
  | cons p ps ih =>
    rw [findMatch] at h
    cases hp : patMatch prev text p with
    | some r =>
      rw [hp] at h
      cases r with
      | mk a b => cases h; exact patMatch_some_length hp
    | none => rw [hp] at h; exact ih h

theorem scrubFuel_nil (pats : List RStr) (f : Nat) (prev : Option Char) :
    scrubFuel pats f prev [] = [] := by
  cases f <;> rfl

theorem scrubFuel_succ_cons (pats : List RStr) (f : Nat) (prev : Option Char)
    (c : Char) (rest : RStr) :
    scrubFuel pats (f + 1) prev (c :: rest) =
      match findMatch pats prev (c :: rest) with
      | some (lastc, remaining) => scrubFuel pats f (some lastc) remaining
      | none => c :: scrubFuel pats f (some c) rest := rfl

theorem scrubFuel_congr (pats : List RStr) (f₁ : Nat) :
    ∀ (f₂ : Nat) (prev : Option Char) (text : RStr),
      text.length ≤ f₁ → text.length ≤ f₂ →
      scrubFuel pats f₁ prev text = scrubFuel pats f₂ prev text := by
  induction f₁ using Nat.strong_induction_on with
  | _ f₁ ih =>
    intro f₂ prev text h₁ h₂
    cases text with
    | nil => rw [scrubFuel_nil, scrubFuel_nil]
    | cons c rest =>
      cases f₁ with
      | zero => simp at h₁
      | succ g₁ =>
        cases f₂ with
        | zero => simp at h₂
        | succ g₂ =>
          simp only [List.length_cons, Nat.add_le_add_iff_right] at h₁ h₂
          rw [scrubFuel_succ_cons, scrubFuel_succ_cons]
          cases hm : findMatch pats prev (c :: rest) with
          | some r =>
            obtain ⟨lastc, remaining⟩ := r
            have hlen : remaining.length < rest.length + 1 := by
              rcases findMatch_some_length hm with hlt | habs
              · simpa using hlt
              · exact absurd habs (by simp)
            exact ih g₁ (Nat.lt_succ_self _) g₂ (some lastc) remaining
              (by omega) (by omega)
          | none =>
            rw [ih g₁ (Nat.lt_succ_self _) g₂ (some c) rest h₁ h₂]

/-- Unfolding equation for `scrub` on a nonempty text. -/
theorem scrub_cons (pats : List RStr) (prev : Option Char) (c : Char)
    (rest : RStr) :
    scrub pats prev (c :: rest) =
      match findMatch pats prev (c :: rest) with
      | some (lastc, remaining) => scrub pats (some lastc) remaining
      | none => c :: scrub pats (some c) rest := by
  unfold scrub
  rw [show (c :: rest).length = rest.length + 1 from rfl, scrubFuel_succ_cons]
  cases hm : findMatch pats prev (c :: rest) with
  | some r =>
    cases r with
    | mk lastc remaining =>
      have hlen : remaining.length < rest.length + 1 := by
        rcases findMatch_some_length hm with hlt | habs
        · simpa using hlt
        · exact absurd habs (by simp)
      exact scrubFuel_congr pats _ _ _ _ (by omega) (Nat.le_refl _)
  | none =>
    rw [scrubFuel_congr pats rest.length rest.length.succ (some c) rest
      (Nat.le_refl _) (Nat.le_succ _)]

theorem scrub_nil (pats : List RStr) (prev : Option Char) :
    scrub pats prev [] = [] := rfl

/-- With no alternatives nothing ever matches: the scan is the
identity. -/
theorem scrub_nil_pats (prev : Option Char) (text : RStr) :
    scrub [] prev text = text := by
  induction text generalizing prev with
  | nil => rfl
  | cons c rest ih => rw [scrub_cons]; simp [findMatch, ih]

/-- An empty exclusion list excludes nothing: the content is only
lowercased. -/
theorem exclude_tags_nil (content : RStr) :
    exclude_tags content [] = rustLower content := by
  unfold exclude_tags exclusion_patterns
  simp [scrub_nil_pats]

theorem wordAt_some (c : Char) : wordAt (some c) = isWordChar c := rfl

theorem wordAt_none : wordAt none = false := rfl

theorem prevAfter_cons (c : Char) (s : RStr) (prev : Option Char) :
    prevAfter (c :: s) prev = some ((c :: s).getLast (List.cons_ne_nil c s)) := by
  unfold prevAfter
  rw [List.getLast?_eq_getLast_of_ne_nil (List.cons_ne_nil c s)]

theorem findMatch_none_of_nonword_head {pats : List RStr} {c : Char}
    {rest : RStr} (hw : PatsWF pats) (hc : isWordChar c = false)
    (prev : Option Char) : findMatch pats prev (c :: rest) = none := by
  induction pats with
  | nil => rfl
  | cons p ps ih =>
    have hp := hw p (List.mem_cons_self p ps)
    rw [findMatch]
    have hpm : patMatch prev (c :: rest) p = none := by
      rcases p with _ | ⟨a, as⟩
      · exact absurd rfl hp.1
      · have ha : isWordChar a = true := hp.2 a (List.mem_cons_self a as)
        have hne : (a = c) = False := by
          simp only [eq_iff_iff, iff_false]
          intro h
          rw [h, hc] at ha
          exact Bool.false_ne_true ha
        rw [patMatch]
        rw [if_neg]
        intro hcond
        have hpre := ((Bool.and_eq_true _ _).mp
          ((Bool.and_eq_true _ _).mp hcond).1).1
        rw [List.isPrefixOf] at hpre
        have := ((Bool.and_eq_true _ _).mp hpre).1
        rw [beq_iff_eq] at this
        exact hne ▸ this
    rw [hpm]
    exact ih (fun p hp => hw p (List.mem_cons_of_mem _ hp))

theorem findMatch_none_of_no_boundary {pats : List RStr} {prev : Option Char}
    {text : RStr} (h : wordAt prev = wordAt text.head?) :
    findMatch pats prev text = none := by
  induction pats with
  | nil => rfl
  | cons p ps ih =>
    rw [findMatch]
    have hpm : patMatch prev text p = none := by
      rcases p with _ | ⟨a, as⟩
      · rfl
      · rw [patMatch, if_neg]
        intro hcond
        have hbd := ((Bool.and_eq_true _ _).mp
          ((Bool.and_eq_true _ _).mp hcond).1).2
        rw [boundary, h, bne_self_eq_false] at hbd
        exact Bool.false_ne_true hbd
    rw [hpm]
    exact ih

/-- Separators pass through the scan unchanged (no word-character
pattern can start on a separator character). -/
theorem scrub_nonword_passthrough {pats : List RStr} (hw : PatsWF pats) :
    ∀ (s : RStr), AllNonWord s → ∀ (prev : Option Char) (rest : RStr),
      scrub pats prev (s ++ rest) = s ++ scrub pats (prevAfter s prev) rest := by
  intro s
  induction s with
  | nil => intro _ prev rest; simp [prevAfter]
  | cons c s' ih =>
    intro hnw prev rest
    have hc : isWordChar c = false := hnw c (List.mem_cons_self c s')
    rw [List.cons_append, scrub_cons,
      findMatch_none_of_nonword_head hw hc prev]
    rw [ih (fun x hx => hnw x (List.mem_cons_of_mem _ hx)) (some c) rest]
    have hpa : prevAfter s' (some c) = prevAfter (c :: s') prev := by
      cases s' with
      | nil => simp [prevAfter_cons, prevAfter]
      | cons d s'' => simp [prevAfter_cons, List.getLast_cons]
    rw [hpa]
    rfl

/-- Inside a word (the previous character is a word character) nothing
matches: word characters pass through. -/
theorem scrub_word_passthrough {pats : List RStr} {w : Char}
    (hwc : isWordChar w = true) :
    ∀ (t : RStr), AllWord t → ∀ (rest : RStr),
      scrub pats (some w) (t ++ rest) = t ++ scrub pats (prevAfter t (some w)) rest := by
  intro t
  induction t generalizing w with
  | nil => intro _ rest; simp [prevAfter]
  | cons c t' ih =>
    intro hall rest
    have hc : isWordChar c = true := hall c (List.mem_cons_self c t')
    rw [List.cons_append, scrub_cons, findMatch_none_of_no_boundary (by
      simp [wordAt, hwc, hc])]
    rw [ih hc (fun x hx => hall x (List.mem_cons_of_mem _ hx)) rest]
    have hpa : prevAfter t' (some c) = prevAfter (c :: t') (some w) := by
      cases t' with
      | nil => simp [prevAfter_cons, prevAfter]
      | cons d t'' => simp [prevAfter_cons, List.getLast_cons]
    rw [hpa]
    rfl

/-- At a word boundary, a well-formed literal alternative matches the
upcoming word exactly when it equals it. -/
theorem patMatch_word {p w rest : RStr} {prev : Option Char}
    (hp : p ≠ [] ∧ AllWord p) (hw : w ≠ [] ∧ AllWord w)
    (hprev : wordAt prev = false) (hnext : wordAt rest.head? = false) :
    patMatch prev (w ++ rest) p =
      if p = w then some (p.getLast hp.1, rest) else none := by
  rcases p with _ | ⟨a, as⟩
  · exact absurd rfl hp.1
  rcases hwc : w with _ | ⟨b, bs⟩
  · exact absurd hwc hw.1
  subst hwc
  by_cases hpre : (a :: as).isPrefixOf ((b :: bs) ++ rest)
  · have hpre' : (a :: as) <+: ((b :: bs) ++ rest) :=
      List.isPrefixOf_iff_prefix.mp hpre
    rcases Nat.lt_trichotomy (as.length + 1) (b :: bs).length with hlt | heq | hgt
    · -- proper prefix of the word: no boundary after the match
      have hne : ¬(a :: as = b :: bs) := by
        intro h
        have := congrArg List.length h
        simp at this hlt
        omega
      have hdrop : ((b :: bs) ++ rest).drop (as.length + 1) =
          (b :: bs).drop (as.length + 1) ++ rest :=
        List.drop_append_of_le_length (Nat.le_of_lt hlt)
      have hdropne : (b :: bs).drop (as.length + 1) ≠ [] := by
        rw [ne_eq, List.drop_eq_nil_iff]
        omega
      rcases hd : (b :: bs).drop (as.length + 1) with _ | ⟨c, cs⟩
      · exact absurd hd hdropne
      have hcw : isWordChar c = true := by
        refine hw.2 c (List.drop_subset (as.length + 1) (b :: bs) ?_)
        rw [hd]
        exact List.mem_cons_self c cs
      rw [patMatch, if_neg, if_neg hne]
      intro hcond
      have hbd := (Bool.and_eq_true _ _).mp hcond |>.2
      rw [hdrop, hd] at hbd
      have hlast : isWordChar ((a :: as).getLast (List.cons_ne_nil a as)) = true :=
        hp.2 _ (List.getLast_mem _)
      rw [boundary] at hbd
      simp [wordAt, hlast, hcw] at hbd
    · -- same length: the alternative is the word itself
      have hple : (a :: as) <+: (b :: bs) :=
        List.prefix_of_prefix_length_le hpre' (List.prefix_append _ _) (by
          simp at heq ⊢
          omega)
      have hpeq : a :: as = b :: bs := List.IsPrefix.eq_of_length hple (by simpa using heq)
      rw [patMatch, if_pos, if_pos hpeq]
      · congr 1
        rw [heq, List.drop_left]
      · refine (Bool.and_eq_true _ _).mpr ⟨(Bool.and_eq_true _ _).mpr ⟨hpre, ?_⟩, ?_⟩
        · have hb : isWordChar b = true := hw.2 b (List.mem_cons_self b bs)
          show (wordAt prev != wordAt (b :: (bs ++ rest)).head?) = true
          rw [List.head?_cons, wordAt_some, hprev, hb]
          rfl
        · rw [heq, List.drop_left]
          have hlast : isWordChar ((a :: as).getLast (List.cons_ne_nil a as)) = true :=
            hp.2 _ (List.getLast_mem _)
          show (wordAt (some _) != wordAt rest.head?) = true
          rw [wordAt_some, hlast, hnext]
          rfl
    · -- longer than the word: it would have to continue into the separator
      exfalso
      obtain ⟨t, ht⟩ := hpre'
      have hdrop1 : ((a :: as) ++ t).drop (b :: bs).length =
          (a :: as).drop (b :: bs).length ++ t :=
        List.drop_append_of_le_length (by simpa using Nat.le_of_lt hgt)
      have hdrop2 : ((b :: bs) ++ rest).drop (b :: bs).length = rest :=
        List.drop_left _ _
      rw [ht] at hdrop1
      rw [hdrop2] at hdrop1
      have hdropne : (a :: as).drop (b :: bs).length ≠ [] := by
        rw [ne_eq, List.drop_eq_nil_iff]
        simp at hgt ⊢
        omega
      rcases hd : (a :: as).drop (b :: bs).length with _ | ⟨c, cs⟩
      · exact absurd hd hdropne
      have hcw : isWordChar c = true := by
        refine hp.2 c (List.drop_subset (b :: bs).length (a :: as) ?_)
        rw [hd]
        exact List.mem_cons_self c cs
      rw [hd] at hdrop1
      rw [hdrop1] at hnext
      simp [wordAt, hcw] at hnext
  · -- not even a prefix: no match, and the alternative is not the word
    have hne : ¬(a :: as = b :: bs) := by
      intro h
      apply hpre
      rw [h]
      exact List.isPrefixOf_iff_prefix.mpr (List.prefix_append _ _)
    rw [patMatch, if_neg, if_neg hne]
    intro hcond
    have := ((Bool.and_eq_true _ _).mp ((Bool.and_eq_true _ _).mp hcond).1).1
    exact (Bool.eq_false_iff.mp (Bool.of_not_eq_true hpre)) this

/-- Leftmost-first alternation at a word boundary: some alternative
fires exactly when the upcoming word is one of them, and the match
consumes exactly that word. -/
theorem findMatch_word {pats : List RStr} (hpats : PatsWF pats) {w rest : RStr}
    {prev : Option Char} (hw : w ≠ [] ∧ AllWord w) (hprev : wordAt prev = false)
    (hnext : wordAt rest.head? = false) :
    (w ∈ pats → ∃ lc, isWordChar lc = true ∧
        findMatch pats prev (w ++ rest) = some (lc, rest)) ∧
    (w ∉ pats → findMatch pats prev (w ++ rest) = none) := by
  induction pats with
  | nil => exact ⟨fun h => absurd h (List.not_mem_nil w), fun _ => rfl⟩
  | cons p ps ih =>
    have hp := hpats p (List.mem_cons_self p ps)
    have hpm := patMatch_word hp hw hprev hnext
    have ihtail := ih (fun q hq => hpats q (List.mem_cons_of_mem _ hq))
    by_cases hpw : p = w
    · subst hpw
      refine ⟨fun _ => ⟨p.getLast hp.1, hp.2 _ (List.getLast_mem _), ?_⟩,
        fun hnot => absurd (List.mem_cons_self p ps) hnot⟩
      rw [findMatch, hpm, if_pos rfl]
    · have hstep : findMatch (p :: ps) prev (w ++ rest) =
          findMatch ps prev (w ++ rest) := by
        rw [findMatch, hpm, if_neg hpw]
      constructor
      · intro hmem
        rcases List.mem_cons.mp hmem with h | h
        · exact absurd h.symm hpw
        · obtain ⟨lc, hlc, hfm⟩ := ihtail.1 h
          exact ⟨lc, hlc, by rw [hstep, hfm]⟩
      · intro hnot
        rw [hstep]
        exact ihtail.2 (fun h => hnot (List.mem_cons_of_mem _ h))

/-- One whole word at a boundary: it is deleted when it is an
alternative and kept verbatim otherwise, and afterwards the scan sits
just after a word character. -/
theorem scrub_word_start {pats : List RStr} (hpats : PatsWF pats) {w rest : RStr}
    (hw : w ≠ [] ∧ AllWord w) {prev : Option Char} (hprev : wordAt prev = false)
    (hnext : wordAt rest.head? = false) :
    ∃ prev', wordAt prev' = true ∧
      scrub pats prev (w ++ rest) =
        (if w ∈ pats then [] else w) ++ scrub pats prev' rest := by
  by_cases hmem : w ∈ pats
  · obtain ⟨lc, hlc, hfm⟩ := (findMatch_word hpats hw hprev hnext).1 hmem
    refine ⟨some lc, by rw [wordAt_some, hlc], ?_⟩
    rcases hwc : w with _ | ⟨b, bs⟩
    · exact absurd hwc hw.1
    subst hwc
    rw [List.cons_append, scrub_cons, ← List.cons_append, hfm, if_pos hmem,
      List.nil_append]
  · have hfm := (findMatch_word hpats hw hprev hnext).2 hmem
    rcases hwc : w with _ | ⟨b, bs⟩
    · exact absurd hwc hw.1
    subst hwc
    have hb : isWordChar b = true := hw.2 b (List.mem_cons_self b bs)
    have hbs : AllWord bs := fun x hx => hw.2 x (List.mem_cons_of_mem _ hx)
    refine ⟨prevAfter bs (some b), ?_, ?_⟩
    · cases bs with
      | nil => rw [show prevAfter [] (some b) = some b from rfl, wordAt_some, hb]
      | cons d bs' =>
        rw [prevAfter_cons, wordAt_some]
        exact hbs _ (List.getLast_mem _)
    · rw [List.cons_append, scrub_cons, ← List.cons_append, hfm]
      show b :: scrub pats (some b) (bs ++ rest) = _
      rw [scrub_word_passthrough hb bs hbs rest, if_neg hmem]
      rfl

theorem renderChunks_head_nonword {cs : List (RStr × RStr)} {fin : RStr}
    (h1 : ∀ pr ∈ cs, pr.1 ≠ [] ∧ AllNonWord pr.1) (hfin : AllNonWord fin) :
    wordAt (renderChunks cs fin).head? = false := by
  cases cs with
  | nil =>
    show wordAt fin.head? = false
    cases fin with
    | nil => rfl
    | cons c f' => rw [List.head?_cons, wordAt_some]; exact hfin c (List.mem_cons_self c f')
  | cons pr cs' =>
    have hpr := h1 pr (List.mem_cons_self pr cs')
    rcases hs : pr.1 with _ | ⟨c, s'⟩
    · exact absurd hs hpr.1
    show wordAt (pr.1 ++ (pr.2 ++ renderChunks cs' fin)).head? = false
    rw [hs, List.cons_append, List.head?_cons, wordAt_some]
    exact hpr.2 c (hs ▸ List.mem_cons_self c s')

/-- The scan over a chunked text deletes exactly the words that are
alternatives and leaves all separators and other words in place. -/
theorem scrub_chunks {pats : List RStr} (hpats : PatsWF pats) :
    ∀ (cs : List (RStr × RStr)) (fin : RStr) (prev : Option Char),
      ChunksWF cs → (∀ pr ∈ cs.tail, pr.1 ≠ []) → AllNonWord fin →
      (∀ pr, cs.head? = some pr → pr.1 = [] → wordAt prev = false) →
      scrub pats prev (renderChunks cs fin) =
        renderChunks (cs.map (fun pr => (pr.1, if pr.2 ∈ pats then [] else pr.2))) fin := by
  intro cs
  induction cs with
  | nil =>
    intro fin prev _ _ hfin _
    have := scrub_nonword_passthrough hpats fin hfin prev []
    simpa [renderChunks, scrub_nil] using this
  | cons pr cs' ih =>
    intro fin prev hcs hseps hfin hprev
    obtain ⟨s, w⟩ := pr
    have hc := hcs (s, w) (List.mem_cons_self _ cs')
    show scrub pats prev (s ++ (w ++ renderChunks cs' fin)) = _
    rw [scrub_nonword_passthrough hpats s hc.1 prev (w ++ renderChunks cs' fin)]
    have hb : wordAt (prevAfter s prev) = false := by
      cases hsc : s with
      | nil => exact hprev (s, w) rfl (by rw [hsc])
      | cons c s' =>
        subst hsc
        rw [prevAfter_cons, wordAt_some]
        exact hc.1 _ (List.getLast_mem _)
    have hnext : wordAt (renderChunks cs' fin).head? = false := by
      refine renderChunks_head_nonword (fun pr2 hpr2 => ?_) hfin
      exact ⟨hseps pr2 (by simpa using hpr2), (hcs pr2 (List.mem_cons_of_mem _ hpr2)).1⟩
    obtain ⟨prev', hprev', heq⟩ :=
      scrub_word_start hpats ⟨hc.2.1, hc.2.2⟩ hb hnext
    rw [heq]
    have hrec := ih fin prev' (fun q hq => hcs q (List.mem_cons_of_mem _ hq))
      (fun q hq => hseps q (by
        cases cs' with
        | nil => simp at hq
        | cons q0 cs'' => exact List.mem_cons_of_mem _ (by simpa using hq)))
      hfin
      (fun q hqh hqe => by
        cases cs' with
        | nil => simp at hqh
        | cons q0 cs'' =>
          rw [List.head?_cons, Option.some.injEq] at hqh
          exact absurd hqe (hqh ▸ hseps q0 (List.mem_cons_self q0 cs'')))
    rw [hrec]
    show _ = (s ++ ((if w ∈ pats then [] else w) ++
      renderChunks (cs'.map fun pr => (pr.1, if pr.2 ∈ pats then [] else pr.2)) fin))
    rfl

/-- `exclude_tags` on a text decomposed into separator/word chunks (the
separators free of word characters, the words nonempty word-character
runs, only the leading separator possibly empty): exactly the words
that equal one of the built patterns — each exclusion term and its
naive plural, trimmed and lowercased — are deleted; every other word
and every separator (including boundary-adjacent ones as in
`dog-house`) survives verbatim. -/
theorem exclude_tags_whole_word (content : RStr) (exclusions : List RStr)
    (cs : List (RStr × RStr)) (fin : RStr)
    (hpats : PatsWF (exclusion_patterns exclusions))
    (hcs : ChunksWF cs) (hseps : ∀ pr ∈ cs.tail, pr.1 ≠ [])
    (hfin : AllNonWord fin)
    (hcontent : rustLower content = renderChunks cs fin) :
    exclude_tags content exclusions =
      renderChunks
        (cs.map (fun pr =>
          (pr.1, if pr.2 ∈ exclusion_patterns exclusions then [] else pr.2)))
        fin := by
  unfold exclude_tags
  rw [hcontent]
  exact scrub_chunks hpats cs fin none hcs hseps hfin (fun _ _ _ => rfl)

/-! ## Result-map lemmas -/

theorem mem_keysOf_mapInsert {a k : Nat} {v : Document} {m : RMap} :
    a ∈ keysOf (mapInsert k v m) ↔ a = k ∨ a ∈ keysOf m := by
  unfold mapInsert
  split
  · rename_i hk
    have hkeys : keysOf (m.map fun p => if p.1 = k then (k, v) else p) = keysOf m := by
      unfold keysOf
      rw [List.map_map]
      apply List.map_congr_left
      intro p _
      by_cases hp : p.1 = k <;> simp [hp]
    rw [hkeys]
    constructor
    · exact Or.inr
    · rintro (rfl | h)
      · exact hk
      · exact h
  · simp [keysOf]

theorem keysOf_mapInsert_fresh {k : Nat} {v : Document} {m : RMap}
    (h : k ∉ keysOf m) : keysOf (mapInsert k v m) = k :: keysOf m := by
  unfold mapInsert
  rw [if_neg h]
  rfl

theorem length_mapInsert_fresh {k : Nat} {v : Document} {m : RMap}
    (h : k ∉ keysOf m) : (mapInsert k v m).length = m.length + 1 := by
  unfold mapInsert
  rw [if_neg h]
  rfl

theorem mem_keysOf_extendMap {a : Nat} {m s : RMap} :
    a ∈ keysOf (extendMap m s) ↔ a ∈ keysOf m ∨ a ∈ keysOf s := by
  induction s generalizing m with
  | nil => simp [extendMap, keysOf]
  | cons p rest ih =>
    show a ∈ keysOf (extendMap (mapInsert p.1 p.2 m) rest) ↔ _
    rw [ih, mem_keysOf_mapInsert]
    simp [keysOf]
    tauto

theorem extendMap_fresh {m s : RMap} (hnd : (keysOf s).Nodup)
    (hdisj : ∀ k ∈ keysOf s, k ∉ keysOf m) :
    (extendMap m s).length = m.length + s.length ∧
      ((keysOf m).Nodup → (keysOf (extendMap m s)).Nodup) := by
  induction s generalizing m with
  | nil => simp [extendMap]
  | cons p rest ih =>
    have hp : p.1 ∉ keysOf m := hdisj p.1 (by simp [keysOf])
    have hkeys : keysOf (p :: rest) = p.1 :: keysOf rest := rfl
    rw [hkeys, List.nodup_cons] at hnd
    have hdisj' : ∀ k ∈ keysOf rest, k ∉ keysOf (mapInsert p.1 p.2 m) := by
      intro k hk
      rw [mem_keysOf_mapInsert]
      rintro (rfl | hmem)
      · exact hnd.1 hk
      · exact hdisj k (by rw [hkeys]; exact List.mem_cons_of_mem _ hk) hmem
    have hrec := ih hnd.2 hdisj'
    constructor
    · show (extendMap (mapInsert p.1 p.2 m) rest).length = _
      rw [hrec.1, length_mapInsert_fresh hp]
      simp; omega
    · intro hm
      show (keysOf (extendMap (mapInsert p.1 p.2 m) rest)).Nodup
      apply hrec.2
      rw [keysOf_mapInsert_fresh hp]
      exact List.Nodup.cons hp hm

/-! ## Walker lemmas (`main_ii.rs`) -/

/-- The entry loop distributes over list append. -/
theorem procList_append (ranker : RStr → Nat → List RStr)
    (loadRes : Except RStr (List RStr)) (rec : Bool) (a b : List FsEntry)
    (docs : RMap) (errs : List RStr) (ctr : Nat) :
    procList ranker loadRes rec (a ++ b) docs errs ctr =
      procList ranker loadRes rec b
        (procList ranker loadRes rec a docs errs ctr).1
        (procList ranker loadRes rec a docs errs ctr).2.1
        (procList ranker loadRes rec a docs errs ctr).2.2 := by
  induction a generalizing docs errs ctr with
  | nil => rw [List.nil_append]; rfl
  | cons e rest ih =>
    rw [List.cons_append, procList, procList]
    rcases hpe : procEntry ranker loadRes rec e docs errs ctr with ⟨d, es, c⟩
    exact ih d es c

/-- The error list is a pure accumulator: running with a nonempty
prefix just prepends it (one directory entry). -/
theorem procEntry_frame (ranker : RStr → Nat → List RStr)
    (loadRes : Except RStr (List RStr)) (rec : Bool) (e : FsEntry)
    (docs : RMap) (errs : List RStr) (ctr : Nat) :
    procEntry ranker loadRes rec e docs errs ctr =
      ((procEntry ranker loadRes rec e docs [] ctr).1,
       errs ++ (procEntry ranker loadRes rec e docs [] ctr).2.1,
       (procEntry ranker loadRes rec e docs [] ctr).2.2) := by
  cases e with
  | badEntry err => simp [procEntry]
  | invalidName => simp [procEntry]
  | file name rr er cr =>
    rw [procEntry.eq_def, procEntry.eq_def]
    by_cases hp : endsWithPdf name
    · rcases hh : handle_pdf_file ranker loadRes docs ctr name rr (fun _ => er) with
        ⟨res1, d1, c1⟩
      cases res1 with
      | error err1 =>
        by_cases he : endsWithEpub name
        · rcases hh2 : handle_epub_file ranker loadRes d1 c1 name cr with ⟨res2, d2, c2⟩
          cases res2 <;> simp [hp, he, hh, hh2]
        · simp [hp, he, hh]
      | ok u =>
        by_cases he : endsWithEpub name
        · rcases hh2 : handle_epub_file ranker loadRes d1 c1 name cr with ⟨res2, d2, c2⟩
          cases res2 <;> simp [hp, he, hh, hh2]
        · simp [hp, he, hh]
    · by_cases he : endsWithEpub name
      · rcases hh2 : handle_epub_file ranker loadRes docs ctr name cr with ⟨res2, d2, c2⟩
        cases res2 <;> simp [hp, he, hh2]
      · simp [hp, he]
  | dir name contents =>
    rw [procEntry.eq_def, procEntry.eq_def]
    cases rec with
    | false =>
      by_cases hp : endsWithPdf name <;> by_cases he : endsWithEpub name <;>
        simp [hp, he]
    | true =>
      cases contents with
      | error err =>
        by_cases hp : endsWithPdf name <;> by_cases he : endsWithEpub name <;>
          simp [hp, he]
      | ok sub =>
        rcases hpl : procList ranker loadRes true sub [] [] ctr with ⟨sd, se, sc⟩
        by_cases hp : endsWithPdf name <;> by_cases he : endsWithEpub name <;>
          simp [hp, he, hpl]

/-- The error list is a pure accumulator of the whole entry loop. -/
theorem procList_frame (ranker : RStr → Nat → List RStr)
    (loadRes : Except RStr (List RStr)) (rec : Bool) (entries : List FsEntry) :
    ∀ (docs : RMap) (errs : List RStr) (ctr : Nat),
      procList ranker loadRes rec entries docs errs ctr =
        ((procList ranker loadRes rec entries docs [] ctr).1,
         errs ++ (procList ranker loadRes rec entries docs [] ctr).2.1,
         (procList ranker loadRes rec entries docs [] ctr).2.2) := by
  induction entries with
  | nil => intro docs errs ctr; simp [procList]
  | cons e rest ih =>
    intro docs errs ctr
    rcases hpe0 : procEntry ranker loadRes rec e docs [] ctr with ⟨d, es, c⟩
    have h1 : procEntry ranker loadRes rec e docs errs ctr = (d, errs ++ es, c) := by
      rw [procEntry_frame, hpe0]
    rw [procList, procList, h1, hpe0]
    show procList ranker loadRes rec rest d (errs ++ es) c =
      ((procList ranker loadRes rec rest d es c).1,
       errs ++ (procList ranker loadRes rec rest d es c).2.1,
       (procList ranker loadRes rec rest d es c).2.2)
    rw [ih d (errs ++ es) c, ih d es c]
    simp

/-- A fault injected after `k` top-level entries: the invocation comes
back normally with exactly the accumulators of the first `k` entries,
and the panic is caught and logged whenever the loop did not already
finish. -/
theorem procListF_take (ranker : RStr → Nat → List RStr)
    (loadRes : Except RStr (List RStr)) (rec : Bool) (entries : List FsEntry) :
    ∀ (k : Nat) (docs : RMap) (errs : List RStr) (ctr : Nat),
      procListF ranker loadRes rec entries (some k) docs errs ctr =
        (procList ranker loadRes rec (entries.take k) docs errs ctr,
         decide (k ≤ entries.length)) := by
  induction entries with
  | nil =>
    intro k docs errs ctr
    cases k <;> simp [procListF, procList]
  | cons e rest ih =>
    intro k docs errs ctr
    cases k with
    | zero => simp [procListF, procList]
    | succ j =>
      rw [List.take_succ_cons, procListF, procList]
      · rcases hpe : procEntry ranker loadRes rec e docs errs ctr with ⟨d, es, c⟩
        show procListF ranker loadRes rec rest (some j) d es c = _
        rw [ih j d es c]
        simp
      · simp

/-- With no fault injected the loop is the plain one. -/
theorem procListF_none (ranker : RStr → Nat → List RStr)
    (loadRes : Except RStr (List RStr)) (rec : Bool) (entries : List FsEntry) :
    ∀ (docs : RMap) (errs : List RStr) (ctr : Nat),
      procListF ranker loadRes rec entries none docs errs ctr =
        (procList ranker loadRes rec entries docs errs ctr, false) := by
  induction entries with
  | nil => intro docs errs ctr; rfl
  | cons e rest ih =>
    intro docs errs ctr
    rw [procListF, procList]
    · rcases hpe : procEntry ranker loadRes rec e docs errs ctr with ⟨d, es, c⟩
      exact ih d es c
    · simp

theorem StepInv_same (docs : RMap) (ctr : Nat) (gate : Prop)
    (errs : List RStr) : StepInv docs ctr gate 0 (docs, errs, ctr) := by
  refine ⟨Nat.le_refl _, fun k hk => Or.inl hk, fun hb hnd => ⟨hnd, hb, fun _ => ?_⟩⟩
  simp

theorem StepInv_insert (docs : RMap) (ctr : Nat) (gate : Prop) (v : Document)
    (errs : List RStr) :
    StepInv docs ctr gate 1 (mapInsert ctr v docs, errs, ctr + 1) := by
  refine ⟨Nat.le_succ _, fun k hk => ?_, fun hb hnd => ?_⟩
  · rcases mem_keysOf_mapInsert.mp hk with rfl | h
    · exact Or.inr ⟨Nat.le_refl _, Nat.lt_succ_self _⟩
    · exact Or.inl h
  · have hfresh : ctr ∉ keysOf docs := fun hmem => Nat.lt_irrefl ctr (hb ctr hmem)
    refine ⟨?_, ?_, fun _ => ?_⟩
    · rw [keysOf_mapInsert_fresh hfresh]
      exact List.Nodup.cons hfresh hnd
    · intro k hk
      rcases mem_keysOf_mapInsert.mp hk with rfl | h
      · exact Nat.lt_succ_self _
      · exact Nat.lt_succ_of_lt (hb k h)
    · simp [length_mapInsert_fresh hfresh]

theorem StepInv_mono {docs : RMap} {ctr : Nat} {gate : Prop} {cnt cnt' : Nat}
    {p : RMap × List RStr × Nat} (h : StepInv docs ctr gate cnt p)
    (hcnt : gate → cnt = cnt') : StepInv docs ctr gate cnt' p := by
  obtain ⟨h1, h2, h3⟩ := h
  exact ⟨h1, h2, fun hb hnd =>
    ⟨(h3 hb hnd).1, (h3 hb hnd).2.1, fun hg => (hcnt hg) ▸ (h3 hb hnd).2.2 hg⟩⟩

theorem StepInv_trans {docs : RMap} {ctr : Nat} {g₁ g₂ gate : Prop}
    {c₁ c₂ : Nat} {p q : RMap × List RStr × Nat}
    (hp : StepInv docs ctr g₁ c₁ p) (hq : StepInv p.1 p.2.2 g₂ c₂ q)
    (hg₁ : gate → g₁) (hg₂ : gate → g₂) :
    StepInv docs ctr gate (c₁ + c₂) q := by
  obtain ⟨hp1, hp2, hp3⟩ := hp
  obtain ⟨hq1, hq2, hq3⟩ := hq
  refine ⟨Nat.le_trans hp1 hq1, fun k hk => ?_, fun hb hnd => ?_⟩
  · rcases hq2 k hk with h | ⟨h1, h2⟩
    · rcases hp2 k h with h' | ⟨h1', h2'⟩
      · exact Or.inl h'
      · exact Or.inr ⟨h1', Nat.lt_of_lt_of_le h2' hq1⟩
    · exact Or.inr ⟨Nat.le_trans hp1 h1, h2⟩
  · obtain ⟨hndp, hbp, hcp⟩ := hp3 hb hnd
    obtain ⟨hndq, hbq, hcq⟩ := hq3 hbp hndp
    refine ⟨hndq, hbq, fun hg => ?_⟩
    rw [hcq (hg₂ hg), hcp (hg₁ hg)]
    omega

theorem StepInv_extend {ctr : Nat} {gate : Prop} {cnt : Nat} {sd : RMap}
    {se : List RStr} {c₁ : Nat} (docs : RMap) (e' : List RStr)
    (hsub : StepInv [] ctr gate cnt (sd, se, c₁)) :
    StepInv docs ctr gate cnt (extendMap docs sd, e', c₁) := by
  obtain ⟨h1, h2, h3⟩ := hsub
  have hsd : ∀ k ∈ keysOf sd, ctr ≤ k ∧ k < c₁ := by
    intro k hk
    rcases h2 k hk with h | h
    · simp [keysOf] at h
    · exact h
  have hsub3 := h3 (by simp [keysOf]) (by simp [keysOf])
  refine ⟨h1, fun k hk => ?_, fun hb hnd => ?_⟩
  · rcases mem_keysOf_extendMap.mp hk with h | h
    · exact Or.inl h
    · exact Or.inr (hsd k h)
  · have hdisj : ∀ k ∈ keysOf sd, k ∉ keysOf docs := by
      intro k hk hmem
      exact Nat.lt_irrefl k (Nat.lt_of_lt_of_le (hb k hmem) (Nat.le_trans (hsd k hk).1 (Nat.le_refl _)))
    have hext := extendMap_fresh hsub3.1 hdisj
    refine ⟨hext.2 hnd, fun k hk => ?_, fun hg => ?_⟩
    · rcases mem_keysOf_extendMap.mp hk with h | h
      · exact Nat.lt_of_lt_of_le (hb k h) (Nat.le_trans h1 (Nat.le_refl _))
      · exact (hsd k h).2
    · have := hsub3.2.2 hg
      simp at this
      rw [hext.1, this]

theorem StepInv_gate {docs : RMap} {ctr : Nat} {g g' : Prop} {cnt : Nat}
    {p : RMap × List RStr × Nat} (h : StepInv docs ctr g cnt p)
    (himp : g' → g) : StepInv docs ctr g' cnt p := by
  obtain ⟨h1, h2, h3⟩ := h
  exact ⟨h1, h2, fun hb hnd =>
    ⟨(h3 hb hnd).1, (h3 hb hnd).2.1, fun hg => (h3 hb hnd).2.2 (himp hg)⟩⟩

theorem StepInv_congr {docs : RMap} {ctr : Nat} {g : Prop} {cnt : Nat}
    {p q : RMap × List RStr × Nat} (h1 : p.1 = q.1) (h2 : p.2.2 = q.2.2)
    (h : StepInv docs ctr g cnt p) : StepInv docs ctr g cnt q := by
  unfold StepInv at h ⊢
  rw [← h1, ← h2]
  exact h

/-- The walk-step invariant for one file entry. -/
theorem procEntry_file_inv (ranker : RStr → Nat → List RStr)
    (loadRes : Except RStr (List RStr)) (rec : Bool) (name : RStr)
    (rr er cr : Except RStr RStr) (docs : RMap) (errs : List RStr) (ctr : Nat) :
    StepInv docs ctr
      (rec = true ∧ noFailE (.file name rr er cr) = true)
      (countEligibleE (.file name rr er cr))
      (procEntry ranker loadRes rec (.file name rr er cr) docs errs ctr) := by
  rw [procEntry.eq_def]
  by_cases hp : endsWithPdf name <;> by_cases he : endsWithEpub name
  · -- both suffixes (impossible for a real name; noFailE rules it out)
    cases rr with
    | error e1 =>
      cases cr with
      | error e2 =>
        simp only [hp, he, if_true, handle_pdf_file, handle_epub_file]
        exact StepInv_mono (StepInv_same _ _ _ _)
          (fun hg => by simp [noFailE, hp, he, isOkE] at hg)
      | ok c2 =>
        simp only [hp, he, if_true, handle_pdf_file, handle_epub_file]
        exact StepInv_mono (StepInv_insert _ _ _ _ _)
          (fun hg => by simp [noFailE, hp, he, isOkE] at hg)
    | ok b1 =>
      cases er with
      | error e1 =>
        cases cr with
        | error e2 =>
          simp only [hp, he, if_true, handle_pdf_file, handle_epub_file]
          exact StepInv_mono (StepInv_same _ _ _ _)
            (fun hg => by simp [noFailE, hp, he, isOkE] at hg)
        | ok c2 =>
          simp only [hp, he, if_true, handle_pdf_file, handle_epub_file]
          exact StepInv_mono (StepInv_insert _ _ _ _ _)
            (fun hg => by simp [noFailE, hp, he, isOkE] at hg)
      | ok e1 =>
        cases cr with
        | error e2 =>
          simp only [hp, he, if_true, handle_pdf_file, handle_epub_file]
          exact StepInv_mono (StepInv_insert _ _ _ _ _)
            (fun hg => by simp [noFailE, hp, he, isOkE] at hg)
        | ok c2 =>
          simp only [hp, he, if_true, handle_pdf_file, handle_epub_file]
          exact StepInv_mono
            (StepInv_trans (StepInv_insert docs ctr True _ errs)
              (StepInv_insert _ _ True _ _) (fun _ => trivial) (fun _ => trivial))
            (fun hg => by simp [noFailE, hp, he, isOkE] at hg)
  · -- .pdf only
    cases rr with
    | error e1 =>
      simp only [hp, he, if_true, if_false, handle_pdf_file]
      exact StepInv_mono (StepInv_same _ _ _ _)
        (fun hg => by simp [noFailE, hp, he, isOkE] at hg)
    | ok b1 =>
      cases er with
      | error e1 =>
        simp only [hp, he, if_true, if_false, handle_pdf_file]
        exact StepInv_mono (StepInv_same _ _ _ _)
          (fun hg => by simp [noFailE, hp, he, isOkE] at hg)
      | ok e1 =>
        simp only [hp, he, if_true, if_false, handle_pdf_file]
        exact StepInv_mono (StepInv_insert _ _ _ _ _)
          (fun hg => by simp [countEligibleE, hp])
  · -- .epub only
    cases cr with
    | error e2 =>
      simp only [hp, he, if_true, if_false, handle_epub_file]
      exact StepInv_mono (StepInv_same _ _ _ _)
        (fun hg => by simp [noFailE, hp, he, isOkE] at hg)
    | ok c2 =>
      simp only [hp, he, if_true, if_false, handle_epub_file]
      exact StepInv_mono (StepInv_insert _ _ _ _ _)
        (fun hg => by simp [countEligibleE, he])
  · -- neither suffix: the file is skipped
    simp only [hp, he, if_false]
    exact StepInv_mono (StepInv_same _ _ _ _)
      (fun hg => by simp [countEligibleE, hp, he])

/-- With `recursive = false` a subdirectory entry leaves the map and
the id state untouched (it can only log name-suffix read errors). -/
theorem procEntry_dir_norec (ranker : RStr → Nat → List RStr)
    (loadRes : Except RStr (List RStr)) (dname : RStr)
    (contents : Except RStr (List FsEntry)) (docs : RMap) (errs : List RStr)
    (ctr : Nat) :
    (procEntry ranker loadRes false (.dir dname contents) docs errs ctr).1 = docs ∧
    (procEntry ranker loadRes false (.dir dname contents) docs errs ctr).2.2 = ctr := by
  rw [procEntry.eq_def]
  by_cases hp : endsWithPdf dname <;> by_cases he : endsWithEpub dname <;>
    simp [hp, he]

/-- An unreadable subdirectory: the inner `Err` of the recursive call
is dropped and nothing is merged. -/
theorem procEntry_dir_err (ranker : RStr → Nat → List RStr)
    (loadRes : Except RStr (List RStr)) (dname : RStr) (cerr : RStr)
    (docs : RMap) (errs : List RStr) (ctr : Nat) :
    (procEntry ranker loadRes true (.dir dname (.error cerr)) docs errs ctr).1 = docs ∧
    (procEntry ranker loadRes true (.dir dname (.error cerr)) docs errs ctr).2.2 = ctr := by
  rw [procEntry.eq_def]
  by_cases hp : endsWithPdf dname <;> by_cases he : endsWithEpub dname <;>
    simp [hp, he]

/-- A readable subdirectory under `recursive = true`: the child's map is
merged into the parent's and the id state advances to the child's. -/
theorem procEntry_dir_ok (ranker : RStr → Nat → List RStr)
    (loadRes : Except RStr (List RStr)) (dname : RStr) (sub : List FsEntry)
    (docs : RMap) (errs : List RStr) (ctr : Nat) :
    (procEntry ranker loadRes true (.dir dname (.ok sub)) docs errs ctr).1 =
      extendMap docs (procList ranker loadRes true sub [] [] ctr).1 ∧
    (procEntry ranker loadRes true (.dir dname (.ok sub)) docs errs ctr).2.2 =
      (procList ranker loadRes true sub [] [] ctr).2.2 := by
  rw [procEntry.eq_def]
  rcases hpl : procList ranker loadRes true sub [] [] ctr with ⟨sd, se, sc⟩
  by_cases hp : endsWithPdf dname <;> by_cases he : endsWithEpub dname <;>
    simp [hp, he, hpl]

/-- The walk invariant of the whole entry loop: ids only grow, the keys
of the result map extend the incoming keys by fresh ones, distinctness
is preserved, and with no failure in a fully recursive walk the map
gains exactly one entry per eligible file of the subtree. -/
theorem procList_inv (ranker : RStr → Nat → List RStr)
    (loadRes : Except RStr (List RStr)) (rec : Bool) :
    ∀ (n : Nat) (entries : List FsEntry), sizeOf entries ≤ n →
      ∀ (docs : RMap) (errs : List RStr) (ctr : Nat),
        StepInv docs ctr (rec = true ∧ noFailL entries = true)
          (countEligibleL entries)
          (procList ranker loadRes rec entries docs errs ctr) := by
  intro n
  induction n using Nat.strong_induction_on with
  | _ n ih =>
    intro entries hsize docs errs ctr
    cases entries with
    | nil =>
      rw [procList]
      exact StepInv_mono (StepInv_same _ _ _ _) (fun _ => by simp [countEligibleL])
    | cons e rest =>
      have hrest_size : sizeOf rest < n := by
        have : sizeOf rest < sizeOf (e :: rest) := by simp
        omega
      rw [procList]
      rcases hpe : procEntry ranker loadRes rec e docs errs ctr with ⟨d, es, c⟩
      have hstep : StepInv docs ctr (rec = true ∧ noFailE e = true)
          (countEligibleE e) (d, es, c) := by
        cases e with
        | file name rr er cr =>
          rw [← hpe]
          exact procEntry_file_inv ranker loadRes rec name rr er cr docs errs ctr
        | badEntry err =>
          have : procEntry ranker loadRes rec (.badEntry err) docs errs ctr =
              (docs, errs ++ [dirEntryErrMsg err], ctr) := by
            rw [procEntry]
          rw [this] at hpe
          obtain ⟨rfl, rfl, rfl⟩ := Prod.mk.injEq .. ▸ hpe
          exact StepInv_mono (StepInv_same _ _ _ _)
            (fun hg => by simp [noFailE] at hg)
        | invalidName =>
          have : procEntry ranker loadRes rec .invalidName docs errs ctr =
              (docs, errs ++ [invalidNameMsg], ctr) := by
            rw [procEntry]
          rw [this] at hpe
          obtain ⟨rfl, rfl, rfl⟩ := Prod.mk.injEq .. ▸ hpe
          exact StepInv_mono (StepInv_same _ _ _ _)
            (fun hg => by simp [noFailE] at hg)
        | dir dname contents =>
          cases hrec : rec with
          | false =>
            subst hrec
            obtain ⟨h1, h2⟩ := procEntry_dir_norec ranker loadRes dname contents docs errs ctr
            rw [hpe] at h1 h2
            refine StepInv_congr (p := (docs, errs, ctr)) ?_ ?_
              (StepInv_mono (StepInv_same _ _ _ _) (fun hg => by simp at hg))
            · exact h1.symm
            · exact h2.symm
          | true =>
            subst hrec
            cases contents with
            | error cerr =>
              obtain ⟨h1, h2⟩ := procEntry_dir_err ranker loadRes dname cerr docs errs ctr
              rw [hpe] at h1 h2
              refine StepInv_congr (p := (docs, errs, ctr)) ?_ ?_
                (StepInv_mono (StepInv_same _ _ _ _)
                  (fun hg => by have := hg.2; simp [noFailE, isOkE] at this))
              · exact h1.symm
              · exact h2.symm
            | ok sub =>
              have hsub_size : sizeOf sub < n := by
                have : sizeOf sub < sizeOf ((FsEntry.dir dname (.ok sub)) :: rest) := by
                  simp
                  omega
                omega
              have hsub := ih (sizeOf sub) hsub_size sub (Nat.le_refl _) [] [] ctr
              obtain ⟨h1, h2⟩ := procEntry_dir_ok ranker loadRes dname sub docs errs ctr
              rcases hsubeq : procList ranker loadRes true sub [] [] ctr with ⟨sd, se, sc⟩
              rw [hsubeq] at hsub h1 h2
              rw [hpe] at h1 h2
              have hext := StepInv_extend docs es hsub
              refine StepInv_congr (p := (extendMap docs sd, es, sc)) ?_ ?_
                (StepInv_mono (StepInv_gate hext ?_) ?_)
              · exact h1.symm
              · exact h2.symm
              · refine fun hg => ⟨rfl, ?_⟩
                have := hg.2
                simp only [noFailE, Bool.and_eq_true] at this
                exact this.2
              · exact fun hg => by simp [countEligibleE]
      have hrest := ih (sizeOf rest) hrest_size rest (Nat.le_refl _) d es c
      refine StepInv_mono (StepInv_trans hstep hrest ?_ ?_) ?_
      · exact fun hg => ⟨hg.1, by
          have := hg.2
          rw [noFailL] at this
          exact (Bool.and_eq_true _ _).mp this |>.1⟩
      · exact fun hg => ⟨hg.1, by
          have := hg.2
          rw [noFailL] at this
          exact (Bool.and_eq_true _ _).mp this |>.2⟩
      · exact fun _ => by rw [countEligibleL]

/-- The `main.rs` walk step for a failure-free file entry: it succeeds
and inserts one entry per matching suffix. -/
theorem procEntryI_file_inv (ranker : RStr → Nat → List RStr)
    (loadRes : Except RStr (List RStr)) (name : RStr)
    (rr er cr : Except RStr RStr) (docs : RMap) (ctr : Nat)
    (hnf : noFailE (.file name rr er cr) = true) :
    ∃ d c, procEntryI ranker loadRes true (.file name rr er cr) docs ctr = .ok (d, c) ∧
      StepInv docs ctr True (countEligibleE (.file name rr er cr)) (d, [], c) := by
  have hentry : procEntryI ranker loadRes true (.file name rr er cr) docs ctr =
      procFileI ranker loadRes name rr er cr docs ctr := by
    rw [procEntryI]
  rw [hentry]
  simp only [noFailE, Bool.and_eq_true, Bool.or_eq_true, Bool.not_eq_true',
    Bool.and_eq_false_iff] at hnf
  by_cases hp : endsWithPdf name <;> by_cases he : endsWithEpub name
  · rcases hnf.1.1 with h | h
    · exact absurd hp (by simp [h])
    · exact absurd he (by simp [h])
  · rcases hnf.1.2 with h | h
    · exact absurd hp (by simp [h])
    · cases rr with
      | error e1 => simp [isOkE] at h
      | ok b1 =>
        cases er with
        | error e1 => simp [isOkE] at h
        | ok e1 =>
          refine ⟨mapInsert ctr (generate_meta ranker loadRes name e1) docs, ctr + 1,
            by simp [procFileI, pdfStageI, epubStageI, hp, he], ?_⟩
          exact StepInv_mono (StepInv_insert _ _ _ _ _)
            (fun _ => by simp [countEligibleE, hp])
  · rcases hnf.2 with h | h
    · exact absurd he (by simp [h])
    · cases cr with
      | error e2 => simp [isOkE] at h
      | ok c2 =>
        refine ⟨mapInsert ctr (generate_meta ranker loadRes name c2) docs, ctr + 1,
          by simp [procFileI, pdfStageI, epubStageI, hp, he], ?_⟩
        exact StepInv_mono (StepInv_insert _ _ _ _ _)
          (fun _ => by simp [countEligibleE, he])
  · refine ⟨docs, ctr, by simp [procFileI, pdfStageI, epubStageI, hp, he], ?_⟩
    exact StepInv_mono (StepInv_same _ _ _ ([] : List RStr))
      (fun _ => by simp [countEligibleE, hp, he])

/-- The `main.rs` entry loop on a failure-free tree: it returns `Ok`
and its map satisfies the walk invariant (in particular it has exactly
one entry per eligible file). -/
theorem procListI_inv (ranker : RStr → Nat → List RStr)
    (loadRes : Except RStr (List RStr)) :
    ∀ (n : Nat) (entries : List FsEntry), sizeOf entries ≤ n →
      ∀ (docs : RMap) (ctr : Nat), noFailL entries = true →
        ∃ d c, procListI ranker loadRes true entries docs ctr = .ok (d, c) ∧
          StepInv docs ctr True (countEligibleL entries) (d, [], c) := by
  intro n
  induction n using Nat.strong_induction_on with
  | _ n ih =>
    intro entries hsize docs ctr hnf
    cases entries with
    | nil =>
      refine ⟨docs, ctr, by rw [procListI], ?_⟩
      exact StepInv_mono (StepInv_same _ _ _ _) (fun _ => by simp [countEligibleL])
    | cons e rest =>
      have hrest_size : sizeOf rest < n := by
        have : sizeOf rest < sizeOf (e :: rest) := by simp
        omega
      rw [noFailL, Bool.and_eq_true] at hnf
      have hstep : ∃ d c, procEntryI ranker loadRes true e docs ctr = .ok (d, c) ∧
          StepInv docs ctr True (countEligibleE e) (d, [], c) := by
        cases e with
        | file name rr er cr =>
          exact procEntryI_file_inv ranker loadRes name rr er cr docs ctr hnf.1
        | badEntry err => simp [noFailE] at hnf
        | invalidName => simp [noFailE] at hnf
        | dir dname contents =>
          cases contents with
          | error cerr =>
            have hd := hnf.1
            simp [noFailE] at hd
          | ok sub =>
            have hd := hnf.1
            simp only [noFailE, Bool.and_eq_true, Bool.not_eq_true'] at hd
            obtain ⟨⟨hdp, hde⟩, hdsub⟩ := hd
            have hsub_size : sizeOf sub < n := by
              have : sizeOf sub < sizeOf ((FsEntry.dir dname (.ok sub)) :: rest) := by
                simp
                omega
              omega
            obtain ⟨sd, sc, hsubeq, hsub⟩ :=
              ih (sizeOf sub) hsub_size sub (Nat.le_refl _) [] ctr hdsub
            refine ⟨extendMap docs sd, sc, ?_, ?_⟩
            · rw [procEntryI.eq_def]
              simp [hdp, hde, hsubeq]
            · exact StepInv_mono (StepInv_extend docs [] hsub)
                (fun _ => by simp [countEligibleE])
      obtain ⟨d₁, c₁, heq₁, hinv₁⟩ := hstep
      obtain ⟨d₂, c₂, heq₂, hinv₂⟩ :=
        ih (sizeOf rest) hrest_size rest (Nat.le_refl _) d₁ c₁ hnf.2
      refine ⟨d₂, c₂, ?_, ?_⟩
      · rw [procListI]
        simp [heq₁, heq₂]
      · exact StepInv_mono
          (StepInv_trans (p := (d₁, [], c₁)) hinv₁ hinv₂ (fun _ => trivial)
            (fun _ => trivial))
          (fun _ => by rw [countEligibleL])

/-- A failing file entry as the `main_ii.rs` loop sees it: the handler
error is appended and the loop continues. -/
theorem procEntry_file_fail (ranker : RStr → Nat → List RStr)
    (loadRes : Except RStr (List RStr)) (rec : Bool) (name : RStr)
    (rr er cr : Except RStr RStr) (msg : RStr) (docs : RMap)
    (errs : List RStr) (ctr : Nat)
    (hfail : (endsWithPdf name = true ∧ endsWithEpub name = false ∧
        ((∃ e, rr = .error e ∧ msg = pdfReadErrMsg name e) ∨
         (∃ b e, rr = .ok b ∧ er = .error e ∧ msg = pdfExtractErrMsg name e))) ∨
      (endsWithPdf name = false ∧ endsWithEpub name = true ∧
        (∃ e, cr = .error e ∧ msg = epubCollectErrMsg name e))) :
    procEntry ranker loadRes rec (.file name rr er cr) docs errs ctr =
      (docs, errs ++ [msg], ctr) := by
  rw [procEntry.eq_def]
  rcases hfail with ⟨hp, he, hcase⟩ | ⟨hp, he, e, hcr, hmsg⟩
  · rcases hcase with ⟨e, hrr, hmsg⟩ | ⟨b, e, hrr, her, hmsg⟩
    · subst hrr hmsg
      simp [hp, he, handle_pdf_file]
    · subst hrr her hmsg
      simp [hp, he, handle_pdf_file]
  · subst hcr hmsg
    simp [hp, he, handle_epub_file]

/-! ## The claims -/

/-- C1 (amended): in `main_ii.rs`'s `process_directory`, when a
supported file's extraction (or the read before it) fails, the
handler's descriptive message is appended to the error list at that
position, the result map and id state are exactly those of the run
without the failing file, and the entries before and after it are
processed exactly as they would be without it — traversal never stops.
(The claim as frozen also covers `main.rs`'s `process_directory`, where
it fails; see the counterexample.) -/
theorem claim_C1 (ranker : RStr → Nat → List RStr)
    (loadRes : Except RStr (List RStr)) (rec : Bool)
    (pre post : List FsEntry) (name : RStr) (rr er cr : Except RStr RStr)
    (msg : RStr) (ctr : Nat) (d₁ d₂ : RMap) (e₁ e₂ : List RStr) (c₁ c₂ : Nat)
    (hfail : (endsWithPdf name = true ∧ endsWithEpub name = false ∧
        ((∃ e, rr = .error e ∧ msg = pdfReadErrMsg name e) ∨
         (∃ b e, rr = .ok b ∧ er = .error e ∧ msg = pdfExtractErrMsg name e))) ∨
      (endsWithPdf name = false ∧ endsWithEpub name = true ∧
        (∃ e, cr = .error e ∧ msg = epubCollectErrMsg name e)))
    (hpre : procList ranker loadRes rec pre [] [] ctr = (d₁, e₁, c₁))
    (hpost : procList ranker loadRes rec post d₁ [] c₁ = (d₂, e₂, c₂)) :
    procList ranker loadRes rec (pre ++ FsEntry.file name rr er cr :: post)
        [] [] ctr = (d₂, e₁ ++ msg :: e₂, c₂) ∧
    procList ranker loadRes rec (pre ++ post) [] [] ctr = (d₂, e₁ ++ e₂, c₂) := by
  constructor
  · rw [procList_append, hpre]
    show procList ranker loadRes rec (FsEntry.file name rr er cr :: post) d₁ e₁ c₁ = _
    rw [procList, procEntry_file_fail ranker loadRes rec name rr er cr msg d₁ e₁ c₁ hfail]
    show procList ranker loadRes rec post d₁ (e₁ ++ [msg]) c₁ = _
    rw [procList_frame, hpost]
    simp
  · rw [procList_append, hpre]
    show procList ranker loadRes rec post d₁ e₁ c₁ = _
    rw [procList_frame, hpost]

/-- C1 (counterexample): `main.rs`'s `process_directory` aborts the
whole call with `Err` at the first failing file: for a directory
holding a corrupted `bad.pdf` followed by an intact `good.pdf`, the
call returns the bare read error — no error-list entry is recorded (the
function has no error list) and the sibling is never processed, so no
result map containing it is returned. -/
theorem claim_C1_counterexample :
    process_directory_i exRanker exLoad true (.ok [exBadPdf, exGoodPdf]) 0 =
      .error exCorrupt := by
  have hentry : procEntryI exRanker exLoad true exBadPdf [] 0 = .error exCorrupt := by
    show procEntryI exRanker exLoad true
      (.file "bad.pdf".toList (.error exCorrupt) (.ok []) (.ok [])) [] 0 = _
    rw [procEntryI]
    rfl
  show procListI exRanker exLoad true [exBadPdf, exGoodPdf] [] 0 = _
  rw [procListI, hentry]

/-- C2: on a failure-free tree, a fully recursive walk returns a result
map with exactly one entry per file whose name carries a supported
extension, whatever the nesting: both for `main_ii.rs`'s
`process_directory` (which also returns the error list) and for
`main.rs`'s (which returns `Ok` with the map). -/
theorem claim_C2 (ranker : RStr → Nat → List RStr)
    (loadRes : Except RStr (List RStr)) (entries : List FsEntry)
    (ctr ctr' : Nat) (h : noFailL entries = true) :
    ((process_directory_ii ranker loadRes true (.ok entries) ctr none).1.1).length =
      countEligibleL entries ∧
    ∃ m c, process_directory_i ranker loadRes true (.ok entries) ctr' = .ok (m, c) ∧
      m.length = countEligibleL entries := by
  constructor
  · have hrun : process_directory_ii ranker loadRes true (.ok entries) ctr none =
        (procList ranker loadRes true entries [] [] ctr, false) := by
      unfold process_directory_ii
      exact procListF_none ranker loadRes true entries [] [] ctr
    rw [hrun]
    obtain ⟨-, -, h3⟩ :=
      procList_inv ranker loadRes true (sizeOf entries) entries (Nat.le_refl _) [] [] ctr
    have := (h3 (by simp [keysOf]) (by simp [keysOf])).2.2 ⟨rfl, h⟩
    simpa using this
  · obtain ⟨m, c, heq, hinv⟩ :=
      procListI_inv ranker loadRes (sizeOf entries) entries (Nat.le_refl _) [] ctr' h
    refine ⟨m, c, ?_, ?_⟩
    · show procListI ranker loadRes true entries [] ctr' = _
      exact heq
    · obtain ⟨-, -, h3⟩ := hinv
      have := (h3 (by simp [keysOf]) (by simp [keysOf])).2.2 trivial
      simpa using this

/-- C3: a traversal panic injected after `k` top-level entries of one
`process_directory` invocation is caught by that invocation's
`catch_unwind`: the call still returns normally, with exactly the
result map and error list accumulated over the first `k` entries, and
the panic is logged (the returned flag); with no fault the run is the
plain loop. -/
theorem claim_C3 (ranker : RStr → Nat → List RStr)
    (loadRes : Except RStr (List RStr)) (rec : Bool) (entries : List FsEntry)
    (ctr k : Nat) (h : k ≤ entries.length) :
    process_directory_ii ranker loadRes rec (.ok entries) ctr (some k) =
      (procList ranker loadRes rec (entries.take k) [] [] ctr, true) ∧
    process_directory_ii ranker loadRes rec (.ok entries) ctr none =
      (procList ranker loadRes rec entries [] [] ctr, false) := by
  constructor
  · show procListF ranker loadRes rec entries (some k) [] [] ctr = _
    rw [procListF_take ranker loadRes rec entries k [] [] ctr,
      decide_eq_true_eq.mpr h]
  · exact procListF_none ranker loadRes rec entries [] [] ctr

/-- C4: a document's keyword list never exceeds the ranker's top-K of
50 — post-processing only ever shrinks the ranked list, never grows
it. -/
theorem claim_C4 (ranker : RStr → Nat → List RStr)
    (loadRes : Except RStr (List RStr)) (filename content : RStr)
    (hranker : ∀ text : RStr, (ranker text 50).length ≤ 50) :
    (generate_meta ranker loadRes filename content).keywords.length ≤ 50 ∧
    ∀ l : List RStr, (post_proc_keywords l).length ≤ l.length := by
  refine ⟨?_, post_proc_keywords_length_le⟩
  exact Nat.le_trans (post_proc_keywords_length_le _) (hranker _)

/-- C5: a term whose trimmed form parses as an `f64` survives
post-processing exactly when its trimmed length is 4 characters (the
grammar only accepts ASCII, so bytes and characters agree), and it is
kept verbatim. -/
theorem claim_C5 (s : RStr) (h : parsesF64 (rustTrim s) = true) :
    post_proc_term s = (if (rustTrim s).length = 4 then some (rustTrim s) else none) ∧
    post_proc_keywords [s] = (if (rustTrim s).length = 4 then [rustTrim s] else []) := by
  have hlen : rustLen (rustTrim s) = (rustTrim s).length :=
    rustLen_eq_length (parsesF64_ascii h)
  by_cases h4 : (rustTrim s).length = 4
  · constructor
    · simp [post_proc_term, h, hlen, h4]
    · simp [post_proc_keywords, h, hlen, h4]
  · constructor
    · simp [post_proc_term, h, hlen, h4]
    · simp [post_proc_keywords, h, hlen, h4]

/-- C6: a non-numeric term is kept exactly when its trimmed form has at
least 3 grapheme clusters, in which case only its first grapheme
cluster is uppercase-folded and the rest of the string is unchanged;
shorter (or empty) terms are discarded. -/
theorem claim_C6 (s : RStr) (h : parsesF64 (rustTrim s) = false) :
    post_proc_keywords [s] =
      (if 3 ≤ (graphemes (rustTrim s)).length then
        [capitalize_first_letter (rustTrim s)] else []) ∧
    ∀ g gs, graphemes (rustTrim s) = g :: gs →
      capitalize_first_letter (rustTrim s) = rustUpper g ++ gs.flatten ∧
      g ++ gs.flatten = rustTrim s := by
  constructor
  · by_cases h3 : 3 ≤ (graphemes (rustTrim s)).length
    · have hne : rustTrim s ≠ [] := by
        intro ht
        rw [ht] at h3
        simp [graphemes] at h3
      simp [post_proc_keywords, h, h3, hne]
    · simp [post_proc_keywords, h, h3]
  · intro g gs hg
    constructor
    · unfold capitalize_first_letter
      rw [hg]
    · have := graphemes_flatten (rustTrim s)
      rw [hg] at this
      simpa using this

/-- C7: post-processing is the per-term filter-map of the ranked list:
it distributes over append (each term is decided independently, so
duplicates pass through unchanged) and its output is a subsequence of
the per-term transforms in input order — nothing is reordered or
deduplicated. -/
theorem claim_C7 :
    (∀ l : List RStr, post_proc_keywords l = l.filterMap post_proc_term) ∧
    (∀ l₁ l₂ : List RStr,
      post_proc_keywords (l₁ ++ l₂) = post_proc_keywords l₁ ++ post_proc_keywords l₂) ∧
    (∀ l : List RStr,
      List.Sublist (post_proc_keywords l)
        (l.map (fun s => (post_proc_term s).getD (capitalize_first_letter (rustTrim s))))) := by
  refine ⟨post_proc_keywords_eq_filterMap, post_proc_keywords_append, fun l => ?_⟩
  rw [post_proc_keywords_eq_filterMap]
  induction l with
  | nil => exact List.Sublist.refl _
  | cons s rest ih =>
    rw [List.filterMap_cons, List.map_cons]
    cases ht : post_proc_term s with
    | none => exact List.Sublist.cons _ ih
    | some v => exact List.Sublist.cons₂ _ ih

/-- C8: `exclude_tags` lowercases the text and deletes exactly the
whole-word-boundary occurrences of each exclusion term and of the term
with a trailing `s` (each trimmed and lowercased), case-insensitively:
on a text decomposed into separator/word chunks, the words equal to a
pattern are deleted and everything else — including a pattern occurring
inside a larger word such as `dog` in `doghouse` — survives, while a
boundary-delimited token such as `dog` in `dog-house` is removed. -/
theorem claim_C8 (content : RStr) (exclusions : List RStr)
    (cs : List (RStr × RStr)) (fin : RStr)
    (hpats : PatsWF (exclusion_patterns exclusions))
    (hcs : ChunksWF cs) (hseps : ∀ pr ∈ cs.tail, pr.1 ≠ [])
    (hfin : AllNonWord fin)
    (hcontent : rustLower content = renderChunks cs fin) :
    exclude_tags content exclusions =
      renderChunks
        (cs.map (fun pr =>
          (pr.1, if pr.2 ∈ exclusion_patterns exclusions then [] else pr.2)))
        fin :=
  exclude_tags_whole_word content exclusions cs fin hpats hcs hseps hfin hcontent

/-- C9: a failed exclusion-list load degrades to the empty exclusion
set: `generate_meta` behaves exactly as with an empty list — which
excludes nothing, the content is only lowercased — and still produces a
`Document`; the failure never aborts document processing. -/
theorem claim_C9 (ranker : RStr → Nat → List RStr) (err : RStr)
    (filename content : RStr) :
    generate_meta ranker (.error err) filename content =
      generate_meta ranker (.ok []) filename content ∧
    exclude_tags content [] = rustLower content ∧
    (generate_meta ranker (.error err) filename content).keywords =
      post_proc_keywords (ranker (rustLower content) 50) := by
  refine ⟨rfl, exclude_tags_nil content, ?_⟩
  show post_proc_keywords (ranker (exclude_tags content []) 50) = _
  rw [exclude_tags_nil]

/-- C10: when a file handler returns an error — at the read stage or
the extraction stage — the shared documents map and the id state are
left completely untouched; an entry is inserted only after every
fallible step succeeded. -/
theorem claim_C10 (ranker : RStr → Nat → List RStr)
    (loadRes : Except RStr (List RStr)) (docs : RMap) (ctr : Nat)
    (name : RStr) (rr : Except RStr RStr) (exf : RStr → Except RStr RStr)
    (cr : Except RStr RStr) :
    (∀ msg : RStr,
      (handle_pdf_file ranker loadRes docs ctr name rr exf).1 = .error msg →
      (handle_pdf_file ranker loadRes docs ctr name rr exf).2 = (docs, ctr)) ∧
    (∀ msg : RStr,
      (handle_epub_file ranker loadRes docs ctr name cr).1 = .error msg →
      (handle_epub_file ranker loadRes docs ctr name cr).2 = (docs, ctr)) := by
  constructor
  · intro msg hmsg
    cases rr with
    | error e => rfl
    | ok bytes =>
      cases hex : exf bytes with
      | error e =>
        unfold handle_pdf_file
        simp [hex]
      | ok content =>
        unfold handle_pdf_file at hmsg
        simp [hex] at hmsg
  · intro msg hmsg
    cases cr with
    | error e => rfl
    | ok content =>
      unfold handle_epub_file at hmsg
      simp at hmsg

/-! ## Witnesses -/

theorem claim_C1_witness :
    (endsWithPdf "bad.pdf".toList = true ∧ endsWithEpub "bad.pdf".toList = false) ∧
    (procList exRanker exLoad true
        ([] ++ FsEntry.file "bad.pdf".toList (.error exCorrupt) (.ok []) (.ok [])
          :: [FsEntry.badEntry exIo]) [] [] 0 =
      ([], [] ++ pdfReadErrMsg "bad.pdf".toList exCorrupt :: [dirEntryErrMsg exIo], 0) ∧
     procList exRanker exLoad true ([] ++ [FsEntry.badEntry exIo]) [] [] 0 =
      ([], [] ++ [dirEntryErrMsg exIo], 0)) := by
  refine ⟨⟨by decide, by decide⟩, ?_⟩
  exact claim_C1 exRanker exLoad true [] [FsEntry.badEntry exIo] "bad.pdf".toList
    (.error exCorrupt) (.ok []) (.ok [])
    (pdfReadErrMsg "bad.pdf".toList exCorrupt) 0 [] [] [] [dirEntryErrMsg exIo] 0 0
    (Or.inl ⟨by decide, by decide, Or.inl ⟨exCorrupt, rfl, rfl⟩⟩)
    (by rw [procList])
    (by simp [procList, procEntry])

theorem claim_C2_witness :
    noFailL exTree = true ∧ countEligibleL exTree = 2 ∧
    (((process_directory_ii exRanker exLoad true (.ok exTree) 0 none).1.1).length =
        countEligibleL exTree ∧
      ∃ m c, process_directory_i exRanker exLoad true (.ok exTree) 0 = .ok (m, c) ∧
        m.length = countEligibleL exTree) := by
  have h : noFailL exTree = true := by
    simp only [exTree, exGoodPdf, exGoodEpub, noFailL, noFailE, isOkE]
    decide
  have hcount : countEligibleL exTree = 2 := by
    simp only [exTree, exGoodPdf, exGoodEpub, countEligibleL, countEligibleE]
    decide
  exact ⟨h, hcount, claim_C2 exRanker exLoad exTree 0 0 h⟩

theorem claim_C3_witness :
    1 ≤ ([FsEntry.badEntry exIo, FsEntry.badEntry exCorrupt] : List FsEntry).length ∧
    (process_directory_ii exRanker exLoad true
        (.ok [FsEntry.badEntry exIo, FsEntry.badEntry exCorrupt]) 0 (some 1) =
      (procList exRanker exLoad true
        ([FsEntry.badEntry exIo, FsEntry.badEntry exCorrupt].take 1) [] [] 0, true) ∧
     process_directory_ii exRanker exLoad true
        (.ok [FsEntry.badEntry exIo, FsEntry.badEntry exCorrupt]) 0 none =
      (procList exRanker exLoad true
        [FsEntry.badEntry exIo, FsEntry.badEntry exCorrupt] [] [] 0, false)) :=
  ⟨by simp, claim_C3 exRanker exLoad true
    [FsEntry.badEntry exIo, FsEntry.badEntry exCorrupt] 0 1 (by simp)⟩

theorem claim_C4_witness :
    (∀ text : RStr, (exRanker text 50).length ≤ 50) ∧
    ((generate_meta exRanker exLoad "a.pdf".toList "some text".toList).keywords.length ≤ 50 ∧
      ∀ l : List RStr, (post_proc_keywords l).length ≤ l.length) :=
  ⟨fun _ => by simp [exRanker],
   claim_C4 exRanker exLoad "a.pdf".toList "some text".toList
     (fun _ => by simp [exRanker])⟩

theorem claim_C5_witness :
    parsesF64 (rustTrim "1999".toList) = true ∧
    (post_proc_term "1999".toList =
        (if (rustTrim "1999".toList).length = 4 then some (rustTrim "1999".toList)
          else none) ∧
      post_proc_keywords ["1999".toList] =
        (if (rustTrim "1999".toList).length = 4 then [rustTrim "1999".toList]
          else [])) :=
  ⟨by decide, claim_C5 "1999".toList (by decide)⟩

theorem claim_C6_witness :
    parsesF64 (rustTrim "cat".toList) = false ∧
    (post_proc_keywords ["cat".toList] =
        (if 3 ≤ (graphemes (rustTrim "cat".toList)).length then
          [capitalize_first_letter (rustTrim "cat".toList)] else []) ∧
      ∀ g gs, graphemes (rustTrim "cat".toList) = g :: gs →
        capitalize_first_letter (rustTrim "cat".toList) = rustUpper g ++ gs.flatten ∧
        g ++ gs.flatten = rustTrim "cat".toList) :=
  ⟨by decide, claim_C6 "cat".toList (by decide)⟩

theorem claim_C8_witness :
    exclude_tags "The Dogs barked, dog-house and doghouse".toList ["dog".toList] =
      "the  barked, -house and doghouse".toList :=
  (claim_C8 "The Dogs barked, dog-house and doghouse".toList ["dog".toList]
    [(([] : RStr), "the".toList), (" ".toList, "dogs".toList),
     (" ".toList, "barked".toList), (", ".toList, "dog".toList),
     ("-".toList, "house".toList), (" ".toList, "and".toList),
     (" ".toList, "doghouse".toList)] []
    (by decide) (by decide) (by decide) (by decide) (by decide)).trans (by decide)

theorem claim_C10_witness :
    (handle_pdf_file exRanker exLoad [] 0 "bad.pdf".toList (.error exCorrupt)
        (fun _ => .ok [])).1 = .error (pdfReadErrMsg "bad.pdf".toList exCorrupt) ∧
    (handle_pdf_file exRanker exLoad [] 0 "bad.pdf".toList (.error exCorrupt)
        (fun _ => .ok [])).2 = ([], 0) ∧
    (handle_epub_file exRanker exLoad [] 0 "bad.epub".toList (.error exCorrupt)).2 =
      ([], 0) :=
  ⟨rfl,
   (claim_C10 exRanker exLoad [] 0 "bad.pdf".toList (.error exCorrupt)
     (fun _ => .ok []) (.error exCorrupt)).1 _ rfl,
   (claim_C10 exRanker exLoad [] 0 "bad.epub".toList (.error exCorrupt)
     (fun _ => .ok []) (.error exCorrupt)).2 _ rfl⟩

end LibraryCat
